import Mathlib

/-!
# mcumux: the serial demultiplexer of `serialize` (main.go)

A shallow embedding of the read/classify/flush loop of `serialize`.
Loop variables of the Go function (`state`, `next`, `packet`, `plain`) become
fields of a record that is passed from step to step; every call that has an
effect outside the function (`pty.Master.Write`, `os.Stdout.Write`,
`fmt.Printf`) is appended to a trace of events, in program order.  Standard
output, the console, receives the plain buffer written by `os.Stdout.Write` and
every line printed by `fmt.Printf`: the report of each packet and the report of
each failed write.
-/

namespace Mcumux

/-- Bytes of the serial stream.  The code only compares bytes for equality, so
they are kept as natural numbers; a real byte is a value below 256. -/
abbrev Byte := Nat

/-- Go `error` values, kept as their message. -/
abbrev IOError := String

/-- Calls of `serialize` that are visible outside it. -/
inductive Event where
  /-- The call `fmt.Printf("mcumgr: %q\n", packet)`: the report of a packet,
  printed on standard output. -/
  | diag (packet : List Byte)
  /-- The call `pty.Master.Write(packet)`: a packet handed to the virtual endpoint. -/
  | ptyWrite (packet : List Byte)
  /-- The report `fmt.Printf("Error sending: {}", err)` after a failed pty write,
  printed on standard output. -/
  | ptyErr (err : IOError)
  /-- The call `os.Stdout.Write(plain)`: a flush of the plain buffer to the console. -/
  | stdoutWrite (plain : List Byte)
  /-- The report `fmt.Printf("Error writing to stdout: {}", err)` after a failed
  flush, printed on standard output. -/
  | stdoutErr (err : IOError)
  deriving DecidableEq

/-- Result of the write calls: applied to the trace up to and including a write
event, it gives the error that the write returned, `none` for a nil error. -/
abbrev WriteOracle := List Event → Option IOError

/-- The oracle under which every write succeeds. -/
def allOk : WriteOracle := fun _ => none

/-- The statement `if err != nil { fmt.Printf(..., err) }` that follows a write:
`sent` is the trace up to and including the write, `report` the line printed
for an error. -/
def reported (env : WriteOracle) (sent : List Event) (report : IOError → Event) :
    List Event :=
  match env sent with
  | some err => sent ++ [report err]
  | none => sent

/-- Variables of the loop of `serialize` together with the trace of its
effects.  `state` is the Go `int` (0 idle, 1 expecting the marker tail,
2 inside a packet), `next` the expected tail byte. -/
structure Loop where
  state : Nat
  next : Byte
  packet : List Byte
  plain : List Byte
  trace : List Event
  deriving DecidableEq

/-- Values of the variables before the first read: `state := 0`, `next = 0`,
both slices of length zero. -/
def init : Loop :=
  { state := 0, next := 0, packet := [], plain := [], trace := [] }

/-- Body of the `for i` loop for the byte `b = buffer[i]`: the `switch state`.
`none` is the run-time panic of `packet[0]` on an empty slice. -/
def stepByte (env : WriteOracle) (w : Loop) (b : Byte) : Option Loop :=
  match w.state with
  | 0 =>
    if b = 6 then
      some { w with state := 1, next := 9, packet := [b] }
    else if b = 4 then
      some { w with state := 1, next := 20, packet := [b] }
    else
      some { w with plain := w.plain ++ [b] }
  | 1 =>
    if b ≠ w.next then
      match w.packet with
      | [] => none
      | h :: _ => some { w with plain := w.plain ++ [h, b], state := 0 }
    else
      some { w with state := 2, packet := w.packet ++ [b] }
  | 2 =>
    if b = 10 then
      let sent := w.trace ++ [Event.diag (w.packet ++ [b]), Event.ptyWrite (w.packet ++ [b])]
      some { w with
        packet := w.packet ++ [b]
        trace := reported env sent Event.ptyErr
        state := 0 }
    else
      some { w with packet := w.packet ++ [b] }
  | _ => some w

/-- The loop `for i := 0; i < n; i++` over the `n` bytes of one read. -/
def feedChunk (env : WriteOracle) : Loop → List Byte → Option Loop
  | w, [] => some w
  | w, b :: bs =>
    match stepByte env w b with
    | none => none
    | some w1 => feedChunk env w1 bs

/-- The statement `if len(plain) != 0 { os.Stdout.Write(plain) ... }` that ends
a cycle. -/
def flush (env : WriteOracle) (w : Loop) : Loop :=
  if w.plain.length ≠ 0 then
    let sent := w.trace ++ [Event.stdoutWrite w.plain]
    { w with trace := reported env sent Event.stdoutErr }
  else
    w

/-- One iteration of the outer `for` after a successful read of `chunk`:
`plain = plain[:0]`, the byte loop, the flush. -/
def cycle (env : WriteOracle) (w : Loop) (chunk : List Byte) : Option Loop :=
  match feedChunk env { w with plain := [] } chunk with
  | none => none
  | some w1 => some (flush env w1)

/-- The outer loop over a sequence of successful reads. -/
def runChunks (env : WriteOracle) : Loop → List (List Byte) → Option Loop
  | w, [] => some w
  | w, c :: cs =>
    match cycle env w c with
    | none => none
    | some w1 => runChunks env w1 cs

/-- What `s.Read(buffer)` returned: `n` bytes with a nil error, or an error. -/
inductive ReadResult where
  | data (chunk : List Byte)
  | failed (err : IOError)
  deriving DecidableEq

/-- How far the loop of `serialize` got on a finite sequence of read results. -/
inductive Outcome where
  /-- The statement `return err` after a failed read. -/
  | returned (err : IOError) (w : Loop)
  /-- Every read result was consumed; the loop is in its next `s.Read`. -/
  | reading (w : Loop)
  /-- A run-time panic. -/
  | panicked
  deriving DecidableEq

/-- The outer `for` of `serialize`, driven by the results of its reads. -/
def serializeLoop (env : WriteOracle) : Loop → List ReadResult → Outcome
  | w, [] => Outcome.reading w
  | w, ReadResult.failed err :: _ => Outcome.returned err w
  | w, ReadResult.data chunk :: rest =>
    match cycle env w chunk with
    | none => Outcome.panicked
    | some w1 => serializeLoop env w1 rest

/-- Packets handed to `pty.Master.Write`, in order. -/
def ptyPackets : List Event → List (List Byte)
  | [] => []
  | Event.ptyWrite p :: tr => p :: ptyPackets tr
  | _ :: tr => ptyPackets tr

/-- Plain buffers handed to `os.Stdout.Write`, in order, one entry per call.
These are the flushes of plain text only; standard output also receives the
lines printed by `fmt.Printf`, see `stdoutCalls` and `stdoutBytes`. -/
def plainFlushes : List Event → List (List Byte)
  | [] => []
  | Event.stdoutWrite p :: tr => p :: plainFlushes tr
  | _ :: tr => plainFlushes tr

/-- All plain-text bytes flushed by `os.Stdout.Write`, in order. -/
def plainBytes (tr : List Event) : List Byte :=
  (plainFlushes tr).flatten

/-- Whether an event is a write to `os.Stdout`: every event but the pty write,
since `fmt.Printf` prints to standard output. -/
def writesStdout : Event → Bool
  | Event.ptyWrite _ => false
  | _ => true

/-- The writes that standard output, the console, receives, in order: packet
reports, error reports and flushes of the plain buffer. -/
def stdoutCalls (tr : List Event) : List Event :=
  tr.filter writesStdout

/-- Packets reported by `fmt.Printf("mcumgr: %q\n", packet)`, in order. -/
def reports : List Event → List (List Byte)
  | [] => []
  | Event.diag p :: tr => p :: reports tr
  | _ :: tr => reports tr

/-- The two parts of the lines printed by `fmt.Printf` that package `fmt`, which
is not part of this program, decides: the text of the verb `%q` for a packet,
and the text that `Printf` adds for the operand `err`, for which the format
strings of the error reports have no verb. -/
structure Printer where
  quoted : List Byte → List Byte
  extra : IOError → List Byte

/-- The bytes of `"mcumgr: "`, which start the report of a packet. -/
def reportPrefix : List Byte := [109, 99, 117, 109, 103, 114, 58, 32]

/-- The bytes of the format string `"Error sending: {}"`. -/
def sendErrorText : List Byte :=
  [69, 114, 114, 111, 114, 32, 115, 101, 110, 100, 105, 110, 103, 58, 32, 123, 125]

/-- The bytes of the format string `"Error writing to stdout: {}"`. -/
def stdoutErrorText : List Byte :=
  [69, 114, 114, 111, 114, 32, 119, 114, 105, 116, 105, 110, 103, 32, 116, 111, 32, 115, 116,
    100, 111, 117, 116, 58, 32, 123, 125]

/-- The bytes that an event puts on standard output. -/
def render (pr : Printer) : Event → List Byte
  | Event.diag p => reportPrefix ++ pr.quoted p ++ [10]
  | Event.ptyWrite _ => []
  | Event.ptyErr err => sendErrorText ++ pr.extra err
  | Event.stdoutWrite plain => plain
  | Event.stdoutErr err => stdoutErrorText ++ pr.extra err

/-- All bytes handed to standard output, the console, in order; the buffer of
a write that returned an error is counted whole. -/
def stdoutBytes (pr : Printer) (tr : List Event) : List Byte :=
  (tr.map (render pr)).flatten

/-- The trace without the error reports: the writes and diagnostics that the
loop attempted, in order. -/
def attempts : List Event → List Event
  | [] => []
  | Event.ptyErr _ :: tr => attempts tr
  | Event.stdoutErr _ :: tr => attempts tr
  | e :: tr => e :: attempts tr

/-- Replace the trace of a loop record by its attempts. -/
def Loop.attempted (w : Loop) : Loop :=
  { w with trace := attempts w.trace }

/-- Apply `f` to the loop variables held by an outcome. -/
def Outcome.map (f : Loop → Loop) : Outcome → Outcome
  | Outcome.returned err w => Outcome.returned err (f w)
  | Outcome.reading w => Outcome.reading (f w)
  | Outcome.panicked => Outcome.panicked

/-- The tail byte that the code requires after a marker head. -/
def tailOf (h : Byte) : Byte :=
  if h = 6 then 9 else 20

/-- Shape of the demultiplexer variables in every reachable state. -/
def CoreInv (w : Loop) : Prop :=
  w.state = 0 ∨
  (w.state = 1 ∧ ((w.packet = [6] ∧ w.next = 9) ∨ (w.packet = [4] ∧ w.next = 20))) ∨
  (w.state = 2 ∧ (w.packet.take 2 = [6, 9] ∨ w.packet.take 2 = [4, 20]) ∧ 10 ∉ w.packet)

instance : DecidablePred CoreInv := fun w => by
  unfold CoreInv
  infer_instance

/-- Wire format of an emitted packet. -/
def GoodPacket (p : List Byte) : Prop :=
  3 ≤ p.length ∧ (p.take 2 = [6, 9] ∨ p.take 2 = [4, 20]) ∧
    p.getLast? = some 10 ∧ 10 ∉ p.dropLast

instance : DecidablePred GoodPacket := fun p => by
  unfold GoodPacket
  infer_instance

/-- Bytes held by the packet in progress: none when idle. -/
def pending (w : Loop) : Nat :=
  if w.state = 0 then 0 else w.packet.length

/-- Sum of the lengths of a list of buffers. -/
def totalLength (l : List (List Byte)) : Nat :=
  (l.map List.length).sum

/-- The demultiplexer variables and what was delivered: state, expected tail,
packet buffer, packets sent to the pty, plain-text bytes flushed. -/
def observe (w : Loop) : Nat × Byte × List Byte × List (List Byte) × List Byte :=
  (w.state, w.next, w.packet, ptyPackets w.trace, plainBytes w.trace)

/-- The observation that the end of the cycle will produce: the plain buffer
counted as already flushed. -/
def observeFlushed (w : Loop) : Nat × Byte × List Byte × List (List Byte) × List Byte :=
  (w.state, w.next, w.packet, ptyPackets w.trace, plainBytes w.trace ++ w.plain)

/-- Lifting of a relation to optional results: both absent, or both present
and related. -/
def OptRel {α : Type} (R : α → α → Prop) : Option α → Option α → Prop
  | none, none => True
  | some a, some b => R a b
  | _, _ => False

/-- Two loop records with the same flushed observation. -/
def Sim (w r : Loop) : Prop :=
  observeFlushed w = observeFlushed r

/-- Two loop records that differ at most in the error reports of their traces. -/
def Same (w r : Loop) : Prop :=
  w.attempted = r.attempted

/-- The packet buffer is empty or starts with a marker head. -/
def PacketHead (w : Loop) : Prop :=
  w.packet = [] ∨ w.packet.head? = some 6 ∨ w.packet.head? = some 4

instance : DecidablePred PacketHead := fun w => by
  unfold PacketHead
  infer_instance

/-- The bytes of the packet in progress: none when idle. -/
def pendingPacket (w : Loop) : List Byte :=
  if w.state = 0 then [] else w.packet

/-- The stream made of plain runs and packets in turn: run, packet, run,
packet, and so on, for as long as both lists last. -/
def weave : List (List Byte) → List (List Byte) → List Byte
  | g :: gs, p :: ps => g ++ p ++ weave gs ps
  | _, _ => []

/-- Two loop records that agree on everything the loop can still read: state,
plain buffer and trace, and, outside the idle state, packet buffer and expected
tail. -/
def IdleEq (w r : Loop) : Prop :=
  w.state = r.state ∧ w.plain = r.plain ∧ w.trace = r.trace ∧
    (w.state ≠ 0 → w.packet = r.packet ∧ w.next = r.next)

/-- Calls of `reader` that are visible outside it. -/
inductive FwdEvent where
  /-- The call `pty.Master.Read(buffer)` returned `n` bytes and a nil error;
  the bytes are `buffer[:n]`. -/
  | ptyRead (bytes : List Byte)
  /-- The call `pty.Master.Read(buffer)` returned an error, reported by
  `fmt.Printf("pty error: {}", err)`. -/
  | ptyReadErr
  /-- The call `ser.Write(buffer[:n])`. -/
  | serWrite (bytes : List Byte)
  /-- The report `fmt.Printf("serial write error: {}", err)` of a failed write. -/
  | serWriteErr
  deriving DecidableEq

/-- Result of the serial writes of `reader`: applied to the trace up to and
including a write, it tells whether that write returned a non-nil error. -/
abbrev FwdOracle := List FwdEvent → Bool

/-- The oracle under which every serial write succeeds. -/
def fwdOk : FwdOracle := fun _ => false

/-- How far the loop of `reader` got on a finite sequence of read results. -/
inductive FwdOutcome where
  /-- The function returned, after a failed read or a failed write. -/
  | returned (tr : List FwdEvent)
  /-- Every read result was consumed; the loop is in its next read. -/
  | reading (tr : List FwdEvent)
  deriving DecidableEq

/-- The loop of `reader`, driven by the results of its reads of the pty master:
a failed read is reported and ends the function; otherwise the bytes read are
written to the serial port, and a failed write is reported and ends the
function. -/
def reader (wfail : FwdOracle) : List FwdEvent → List ReadResult → FwdOutcome
  | tr, [] => FwdOutcome.reading tr
  | tr, ReadResult.failed _ :: _ => FwdOutcome.returned (tr ++ [FwdEvent.ptyReadErr])
  | tr, ReadResult.data chunk :: rest =>
    if wfail (tr ++ [FwdEvent.ptyRead chunk, FwdEvent.serWrite chunk]) then
      FwdOutcome.returned
        (tr ++ [FwdEvent.ptyRead chunk, FwdEvent.serWrite chunk] ++ [FwdEvent.serWriteErr])
    else
      reader wfail (tr ++ [FwdEvent.ptyRead chunk, FwdEvent.serWrite chunk]) rest

/-- The trace of an outcome of `reader`. -/
def FwdOutcome.trace : FwdOutcome → List FwdEvent
  | FwdOutcome.returned tr => tr
  | FwdOutcome.reading tr => tr

/-- Buffers handed to `ser.Write`, in order, one entry per call. -/
def serWrites : List FwdEvent → List (List Byte)
  | [] => []
  | FwdEvent.serWrite p :: tr => p :: serWrites tr
  | _ :: tr => serWrites tr

/-- Buffers returned by the successful reads of the pty master, in order. -/
def ptyReads : List FwdEvent → List (List Byte)
  | [] => []
  | FwdEvent.ptyRead p :: tr => p :: ptyReads tr
  | _ :: tr => ptyReads tr

/-- The chunks of the successful reads that precede the first failed read. -/
def leadingData : List ReadResult → List (List Byte)
  | ReadResult.data chunk :: rest => chunk :: leadingData rest
  | _ => []

/-- The trace of `reader` when it forwards each chunk: a read, then the write of
the same bytes. -/
def forwarded : List (List Byte) → List FwdEvent
  | [] => []
  | c :: cs => FwdEvent.ptyRead c :: FwdEvent.serWrite c :: forwarded cs

/-! ## Traces -/

theorem ptyPackets_append (a b : List Event) :
    ptyPackets (a ++ b) = ptyPackets a ++ ptyPackets b := by
  induction a with
  | nil => rfl
  | cons e a ih => cases e <;> simp [ptyPackets, ih]

theorem plainFlushes_append (a b : List Event) :
    plainFlushes (a ++ b) = plainFlushes a ++ plainFlushes b := by
  induction a with
  | nil => rfl
  | cons e a ih => cases e <;> simp [plainFlushes, ih]

theorem plainBytes_append (a b : List Event) :
    plainBytes (a ++ b) = plainBytes a ++ plainBytes b := by
  simp [plainBytes, plainFlushes_append]

theorem attempts_append (a b : List Event) :
    attempts (a ++ b) = attempts a ++ attempts b := by
  induction a with
  | nil => rfl
  | cons e a ih => cases e <;> simp [attempts, ih]

theorem reported_allOk (sent : List Event) (report : IOError → Event) :
    reported allOk sent report = sent := rfl

theorem reported_of_none (env : WriteOracle) (sent : List Event) (report : IOError → Event)
    (h : env sent = none) : reported env sent report = sent := by
  simp only [reported, h]

theorem reported_of_some (env : WriteOracle) (sent : List Event) (report : IOError → Event)
    (err : IOError) (h : env sent = some err) :
    reported env sent report = sent ++ [report err] := by
  simp only [reported, h]

theorem reported_cases (env : WriteOracle) (sent : List Event) (report : IOError → Event) :
    (env sent = none ∧ reported env sent report = sent) ∨
      ∃ err, env sent = some err ∧ reported env sent report = sent ++ [report err] := by
  unfold reported
  cases env sent with
  | none => exact Or.inl ⟨rfl, rfl⟩
  | some err => exact Or.inr ⟨err, rfl, rfl⟩

theorem ptyPackets_reported_ptyErr (env : WriteOracle) (sent : List Event) :
    ptyPackets (reported env sent Event.ptyErr) = ptyPackets sent := by
  unfold reported
  cases env sent <;> simp [ptyPackets_append, ptyPackets]

theorem ptyPackets_reported_stdoutErr (env : WriteOracle) (sent : List Event) :
    ptyPackets (reported env sent Event.stdoutErr) = ptyPackets sent := by
  unfold reported
  cases env sent <;> simp [ptyPackets_append, ptyPackets]

theorem plainFlushes_reported_ptyErr (env : WriteOracle) (sent : List Event) :
    plainFlushes (reported env sent Event.ptyErr) = plainFlushes sent := by
  unfold reported
  cases env sent <;> simp [plainFlushes_append, plainFlushes]

theorem plainFlushes_reported_stdoutErr (env : WriteOracle) (sent : List Event) :
    plainFlushes (reported env sent Event.stdoutErr) = plainFlushes sent := by
  unfold reported
  cases env sent <;> simp [plainFlushes_append, plainFlushes]

theorem attempts_reported_ptyErr (env : WriteOracle) (sent : List Event) :
    attempts (reported env sent Event.ptyErr) = attempts sent := by
  unfold reported
  cases env sent <;> simp [attempts_append, attempts]

theorem attempts_reported_stdoutErr (env : WriteOracle) (sent : List Event) :
    attempts (reported env sent Event.stdoutErr) = attempts sent := by
  unfold reported
  cases env sent <;> simp [attempts_append, attempts]

/-! ## Independence of read boundaries and of write results -/

theorem feedChunk_append (env : WriteOracle) (w : Loop) (a b : List Byte) :
    feedChunk env w (a ++ b) = (feedChunk env w a).bind (fun w1 => feedChunk env w1 b) := by
  induction a generalizing w with
  | nil => rfl
  | cons x a ih =>
    simp only [List.cons_append, feedChunk]
    cases stepByte env w x with
    | none => rfl
    | some w1 => exact ih w1

theorem stepByte_sim (e1 e2 : WriteOracle) (w r : Loop) (b : Byte) (h : Sim w r) :
    OptRel Sim (stepByte e1 w b) (stepByte e2 r b) := by
  obtain ⟨st, nx, pk, pl, tr⟩ := w
  obtain ⟨st2, nx2, pk2, pl2, tr2⟩ := r
  simp only [Sim, observeFlushed, plainBytes, Prod.mk.injEq] at h
  obtain ⟨rfl, rfl, rfl, hp, hc⟩ := h
  match st with
  | 0 =>
    simp only [stepByte]
    split_ifs <;> simp [OptRel, Sim, observeFlushed, plainBytes, hp, hc, ← List.append_assoc]
  | 1 =>
    simp only [stepByte]
    split_ifs
    · cases pk with
      | nil => simp [OptRel]
      | cons x xs => simp [OptRel, Sim, observeFlushed, plainBytes, hp, ← List.append_assoc, hc]
    · simp [OptRel, Sim, observeFlushed, plainBytes, hp, hc]
  | 2 =>
    simp only [stepByte]
    split_ifs <;>
      simp [OptRel, Sim, observeFlushed, plainBytes, hp, hc, ptyPackets_append,
        plainFlushes_append, ptyPackets, plainFlushes, ptyPackets_reported_ptyErr,
        plainFlushes_reported_ptyErr]
  | n + 3 => simp [stepByte, OptRel, Sim, observeFlushed, plainBytes, hp, hc]

theorem feedChunk_sim (e1 e2 : WriteOracle) (bs : List Byte) (w r : Loop) (h : Sim w r) :
    OptRel Sim (feedChunk e1 w bs) (feedChunk e2 r bs) := by
  induction bs generalizing w r with
  | nil => exact h
  | cons b bs ih =>
    have hs := stepByte_sim e1 e2 w r b h
    simp only [feedChunk]
    cases h1 : stepByte e1 w b with
    | none =>
      cases h2 : stepByte e2 r b with
      | none => trivial
      | some r1 => rw [h1, h2] at hs; exact hs.elim
    | some w1 =>
      cases h2 : stepByte e2 r b with
      | none => rw [h1, h2] at hs; exact hs.elim
      | some r1 => rw [h1, h2] at hs; exact ih w1 r1 hs

theorem flush_state (env : WriteOracle) (w : Loop) : (flush env w).state = w.state := by
  unfold flush
  split_ifs <;> rfl

theorem flush_next (env : WriteOracle) (w : Loop) : (flush env w).next = w.next := by
  unfold flush
  split_ifs <;> rfl

theorem flush_packet (env : WriteOracle) (w : Loop) : (flush env w).packet = w.packet := by
  unfold flush
  split_ifs <;> rfl

theorem flush_plain (env : WriteOracle) (w : Loop) : (flush env w).plain = w.plain := by
  unfold flush
  split_ifs <;> rfl

theorem flush_ptyPackets (env : WriteOracle) (w : Loop) :
    ptyPackets (flush env w).trace = ptyPackets w.trace := by
  by_cases hp : w.plain.length ≠ 0 <;>
    simp [flush, hp, ptyPackets_reported_stdoutErr, ptyPackets_append, ptyPackets]

theorem flush_plainFlushes (env : WriteOracle) (w : Loop) :
    plainFlushes (flush env w).trace =
      plainFlushes w.trace ++ (if w.plain = [] then [] else [w.plain]) := by
  by_cases hp : w.plain = [] <;>
    simp [flush, hp, plainFlushes_reported_stdoutErr, plainFlushes_append, plainFlushes]

theorem flush_plainBytes (env : WriteOracle) (w : Loop) :
    plainBytes (flush env w).trace = plainBytes w.trace ++ w.plain := by
  unfold plainBytes
  rw [flush_plainFlushes]
  split_ifs with h <;> simp [h]

theorem observe_flush (env : WriteOracle) (w : Loop) :
    observe (flush env w) = observeFlushed w := by
  simp [observe, observeFlushed, flush_state, flush_next, flush_packet, flush_ptyPackets,
    flush_plainBytes]

/-- The observation after a sequence of reads is the flushed observation of the
byte loop run once over the concatenated stream, whatever the write results. -/
theorem runChunks_sim (e1 e2 : WriteOracle) (chunks : List (List Byte)) (w r : Loop)
    (h : observe w = observeFlushed r) :
    (runChunks e1 w chunks).map observe =
      (feedChunk e2 r chunks.flatten).map observeFlushed := by
  induction chunks generalizing w r with
  | nil => simp [runChunks, feedChunk, h]
  | cons c cs ih =>
    have h0 : Sim { w with plain := [] } r := by
      simp only [observe, observeFlushed, Prod.mk.injEq] at h
      simp [Sim, observeFlushed, h]
    have hs := feedChunk_sim e1 e2 c _ _ h0
    simp only [runChunks, cycle, List.flatten_cons, feedChunk_append]
    cases h1 : feedChunk e1 { w with plain := [] } c with
    | none =>
      cases h2 : feedChunk e2 r c with
      | none => rfl
      | some r1 => rw [h1, h2] at hs; exact hs.elim
    | some w1 =>
      cases h2 : feedChunk e2 r c with
      | none => rw [h1, h2] at hs; exact hs.elim
      | some r1 =>
        rw [h1, h2] at hs
        simp only [Option.some_bind]
        exact ih (flush e1 w1) r1 ((observe_flush e1 w1).trans hs)

theorem runChunks_observe (e1 e2 : WriteOracle) (chunks : List (List Byte)) (w : Loop) :
    (runChunks e1 w chunks).map observe =
      (feedChunk e2 { w with plain := [] } chunks.flatten).map observeFlushed :=
  runChunks_sim e1 e2 chunks w _ (by simp [observe, observeFlushed])

/-! ## Runs of the byte loop on bytes of one kind -/

theorem feedChunk_idle_plain (env : WriteOracle) (bs : List Byte) (w : Loop)
    (hs : w.state = 0) (hb : ∀ b ∈ bs, b ≠ 6 ∧ b ≠ 4) :
    feedChunk env w bs = some { w with plain := w.plain ++ bs } := by
  induction bs generalizing w with
  | nil => simp [feedChunk]
  | cons b bs ih =>
    obtain ⟨st, nx, pk, pl, tr⟩ := w
    simp only at hs
    subst hs
    have h6 := (hb b (List.mem_cons_self b bs)).1
    have h4 := (hb b (List.mem_cons_self b bs)).2
    simp only [feedChunk, stepByte, h6, h4, if_false]
    rw [ih _ rfl (fun x hx => hb x (List.mem_cons_of_mem b hx))]
    simp

theorem feedChunk_inPacket (env : WriteOracle) (bs : List Byte) (w : Loop)
    (hs : w.state = 2) (hb : 10 ∉ bs) :
    feedChunk env w bs = some { w with packet := w.packet ++ bs } := by
  induction bs generalizing w with
  | nil => simp [feedChunk]
  | cons b bs ih =>
    obtain ⟨st, nx, pk, pl, tr⟩ := w
    simp only at hs
    subst hs
    have hb10 : b ≠ 10 := fun h => hb (by simp [h])
    have hbs : 10 ∉ bs := fun h => hb (List.mem_cons_of_mem b h)
    simp only [feedChunk, stepByte, hb10, if_false]
    rw [ih _ rfl hbs]
    simp

/-- The byte loop on a marker, a newline-free payload and possibly more
newline-free bytes, from the idle state: the packet buffer holds them all. -/
theorem feedChunk_open (env : WriteOracle) (w : Loop) (head tail : Byte) (p : List Byte)
    (hs : w.state = 0) (hm : (head = 6 ∧ tail = 9) ∨ (head = 4 ∧ tail = 20))
    (hp : 10 ∉ p) :
    feedChunk env w ([head, tail] ++ p) =
      some { w with state := 2, next := tail, packet := [head, tail] ++ p } := by
  obtain ⟨st, nx, pk, pl, tr⟩ := w
  simp only at hs
  subst hs
  rcases hm with ⟨rfl, rfl⟩ | ⟨rfl, rfl⟩
  · have h := feedChunk_inPacket env p ⟨2, 9, [6, 9], pl, tr⟩ rfl hp
    simpa [feedChunk, stepByte] using h
  · have h := feedChunk_inPacket env p ⟨2, 20, [4, 20], pl, tr⟩ rfl hp
    simpa [feedChunk, stepByte] using h

/-- The byte loop on a whole frame from the idle state: one report and one pty
write of the frame, followed by the error report when the write failed. -/
theorem feedChunk_frame (env : WriteOracle) (w : Loop) (head tail : Byte) (p : List Byte)
    (hs : w.state = 0) (hm : (head = 6 ∧ tail = 9) ∨ (head = 4 ∧ tail = 20))
    (hp : 10 ∉ p) :
    feedChunk env w ([head, tail] ++ p ++ [10]) =
      some { w with
        state := 0, next := tail, packet := [head, tail] ++ p ++ [10]
        trace := reported env (w.trace ++ [Event.diag ([head, tail] ++ p ++ [10]),
          Event.ptyWrite ([head, tail] ++ p ++ [10])]) Event.ptyErr } := by
  rw [feedChunk_append, feedChunk_open env w head tail p hs hm hp]
  simp only [Option.some_bind, feedChunk, stepByte, if_true]

theorem cycle_of_feed (env : WriteOracle) (w w1 : Loop) (c : List Byte)
    (h : feedChunk env { w with plain := [] } c = some w1) :
    cycle env w c = some (flush env w1) := by
  simp only [cycle, h]

theorem runChunks_single (env : WriteOracle) (w w1 : Loop) (c : List Byte)
    (h : cycle env w c = some w1) : runChunks env w [c] = some w1 := by
  simp only [runChunks, h]

/-! ## Invariants of the byte loop -/

theorem take_two_eq {p : List Byte} {x y : Byte} (h : p.take 2 = [x, y]) :
    ∃ rest, p = x :: y :: rest := by
  match p, h with
  | a :: c :: rest, h =>
    simp only [List.take_succ_cons, List.take_zero, List.cons.injEq, and_true] at h
    exact ⟨rest, by rw [h.1, h.2]⟩

theorem goodPacket_of_marker (x y : Byte) (rest : List Byte)
    (hm : (x = 6 ∧ y = 9) ∨ (x = 4 ∧ y = 20)) (h : 10 ∉ x :: y :: rest) :
    GoodPacket (x :: y :: rest ++ [10]) := by
  refine ⟨by simp, ?_, List.getLast?_concat (x :: y :: rest), ?_⟩
  · rcases hm with ⟨rfl, rfl⟩ | ⟨rfl, rfl⟩ <;> simp
  · rw [List.dropLast_concat]
    exact h

theorem stepByte_plainFlushes (env : WriteOracle) (w w1 : Loop) (b : Byte)
    (h : stepByte env w b = some w1) : plainFlushes w1.trace = plainFlushes w.trace := by
  obtain ⟨st, nx, pk, pl, tr⟩ := w
  match st with
  | 0 =>
    simp only [stepByte] at h
    split_ifs at h <;> simp at h <;> subst h <;> rfl
  | 1 =>
    simp only [stepByte] at h
    split_ifs at h
    · cases pk with
      | nil => simp at h
      | cons x xs => simp at h; subst h; rfl
    · simp at h; subst h; rfl
  | 2 =>
    simp only [stepByte] at h
    split_ifs at h <;> simp at h <;> subst h <;>
      simp [plainFlushes_append, plainFlushes, plainFlushes_reported_ptyErr]
  | n + 3 => simp [stepByte] at h; subst h; rfl

theorem feedChunk_plainFlushes (env : WriteOracle) (bs : List Byte) (w w1 : Loop)
    (h : feedChunk env w bs = some w1) : plainFlushes w1.trace = plainFlushes w.trace := by
  induction bs generalizing w with
  | nil => simp [feedChunk] at h; subst h; rfl
  | cons b bs ih =>
    simp only [feedChunk] at h
    cases hs : stepByte env w b with
    | none => rw [hs] at h; simp at h
    | some w2 =>
      rw [hs] at h
      rw [ih w2 h, stepByte_plainFlushes env w w2 b hs]

/-- One byte from a well-shaped state: the step does not panic, keeps the
shape, sends only well-formed packets and routes exactly one more byte. -/
theorem stepByte_facts (env : WriteOracle) (w : Loop) (b : Byte) (hi : CoreInv w) :
    ∃ w1, stepByte env w b = some w1 ∧ CoreInv w1 ∧
      (∀ p ∈ ptyPackets w1.trace, p ∈ ptyPackets w.trace ∨ GoodPacket p) ∧
      w1.plain.length + totalLength (ptyPackets w1.trace) + pending w1 =
        w.plain.length + totalLength (ptyPackets w.trace) + pending w + 1 := by
  obtain ⟨st, nx, pk, pl, tr⟩ := w
  rcases hi with h0 | ⟨h1, hpk⟩ | ⟨h2, htk, h10⟩
  · simp only at h0
    subst h0
    by_cases h6 : b = 6
    · subst h6
      exact ⟨_, rfl, by simp [CoreInv], fun p hp => Or.inl hp, by simp [pending]⟩
    · by_cases h4 : b = 4
      · subst h4
        exact ⟨_, rfl, by simp [CoreInv], fun p hp => Or.inl hp, by simp [pending]⟩
      · simp only [stepByte, h6, h4, if_false]
        exact ⟨_, rfl, by simp [CoreInv], fun p hp => Or.inl hp, by simp [pending]; omega⟩
  · simp only at h1 hpk
    subst h1
    by_cases hn : b = nx
    · subst hn
      simp only [stepByte, ne_eq, not_true_eq_false, if_false]
      refine ⟨_, rfl, ?_, fun p hp => Or.inl hp, ?_⟩
      · rcases hpk with ⟨rfl, rfl⟩ | ⟨rfl, rfl⟩ <;> simp [CoreInv]
      · rcases hpk with ⟨rfl, rfl⟩ | ⟨rfl, rfl⟩ <;> simp [pending]
    · rcases hpk with ⟨rfl, rfl⟩ | ⟨rfl, rfl⟩
      · simp only [stepByte, ne_eq, hn, not_false_eq_true, if_true]
        exact ⟨_, rfl, by simp [CoreInv], fun p hp => Or.inl hp, by simp [pending]; omega⟩
      · simp only [stepByte, ne_eq, hn, not_false_eq_true, if_true]
        exact ⟨_, rfl, by simp [CoreInv], fun p hp => Or.inl hp, by simp [pending]; omega⟩
  · simp only at h2 htk h10
    subst h2
    have hshape : ∃ x y rest, pk = x :: y :: rest ∧ ((x = 6 ∧ y = 9) ∨ (x = 4 ∧ y = 20)) := by
      rcases htk with h | h
      · obtain ⟨rest, hr⟩ := take_two_eq h
        exact ⟨6, 9, rest, hr, Or.inl ⟨rfl, rfl⟩⟩
      · obtain ⟨rest, hr⟩ := take_two_eq h
        exact ⟨4, 20, rest, hr, Or.inr ⟨rfl, rfl⟩⟩
    obtain ⟨x, y, rest, rfl, hm⟩ := hshape
    by_cases hb : b = 10
    · subst hb
      have hg := goodPacket_of_marker x y rest hm h10
      simp only [stepByte, if_true]
      refine ⟨_, rfl, by simp [CoreInv], ?_, ?_⟩
      · intro p hp
        simp only [ptyPackets_reported_ptyErr, ptyPackets_append, ptyPackets, List.mem_append,
          List.mem_singleton, List.append_nil] at hp
        rcases hp with hp | hp
        · exact Or.inl hp
        · exact Or.inr (hp ▸ hg)
      · simp [pending, ptyPackets_reported_ptyErr, ptyPackets_append, ptyPackets, totalLength]
        omega
    · simp only [stepByte, hb, if_false]
      refine ⟨_, rfl, ?_, fun p hp => Or.inl hp, by simp [pending]; omega⟩
      refine Or.inr (Or.inr ⟨rfl, ?_, ?_⟩)
      · rcases hm with ⟨rfl, rfl⟩ | ⟨rfl, rfl⟩ <;> simp
      · simp only [List.mem_cons, not_or] at h10
        simp only [List.cons_append, List.mem_cons, List.mem_append, List.mem_singleton,
          List.not_mem_nil, or_false, not_or]
        exact ⟨h10.1, h10.2.1, h10.2.2, fun h => hb h.symm⟩

theorem feedChunk_facts (env : WriteOracle) (bs : List Byte) (w : Loop) (hi : CoreInv w)
    (hg : ∀ p ∈ ptyPackets w.trace, GoodPacket p) :
    ∃ w1, feedChunk env w bs = some w1 ∧ CoreInv w1 ∧
      (∀ p ∈ ptyPackets w1.trace, GoodPacket p) ∧
      w1.plain.length + totalLength (ptyPackets w1.trace) + pending w1 =
        w.plain.length + totalLength (ptyPackets w.trace) + pending w + bs.length := by
  induction bs generalizing w with
  | nil => exact ⟨w, rfl, hi, hg, rfl⟩
  | cons b bs ih =>
    obtain ⟨w1, hs, hi1, hg1, hc1⟩ := stepByte_facts env w b hi
    obtain ⟨w2, hf, hi2, hg2, hc2⟩ := ih w1 hi1
      (fun p hp => (hg1 p hp).elim (hg p) id)
    refine ⟨w2, by simp only [feedChunk, hs, hf], hi2, hg2, ?_⟩
    rw [hc2, hc1, List.length_cons]
    omega

theorem coreInv_flush (env : WriteOracle) (w : Loop) (h : CoreInv w) :
    CoreInv (flush env w) := by
  unfold CoreInv
  rw [flush_state, flush_packet, flush_next]
  exact h

theorem coreInv_reset (w : Loop) (h : CoreInv w) : CoreInv { w with plain := [] } := h

theorem pending_flush (env : WriteOracle) (w : Loop) : pending (flush env w) = pending w := by
  unfold pending
  rw [flush_state, flush_packet]

/-- A sequence of reads from a well-shaped state: the loop does not panic,
keeps the shape, has sent only well-formed packets, has routed every byte
once, and has not flushed an empty plain buffer. -/
theorem runChunks_facts (env : WriteOracle) (chunks : List (List Byte)) (w : Loop)
    (hi : CoreInv w) (hg : ∀ p ∈ ptyPackets w.trace, GoodPacket p)
    (hn : ∀ p ∈ plainFlushes w.trace, p ≠ []) :
    ∃ w1, runChunks env w chunks = some w1 ∧ CoreInv w1 ∧
      (∀ p ∈ ptyPackets w1.trace, GoodPacket p) ∧
      (∀ p ∈ plainFlushes w1.trace, p ≠ []) ∧
      (plainBytes w1.trace).length + totalLength (ptyPackets w1.trace) + pending w1 =
        (plainBytes w.trace).length + totalLength (ptyPackets w.trace) + pending w +
          chunks.flatten.length := by
  induction chunks generalizing w with
  | nil => exact ⟨w, rfl, hi, hg, hn, by simp⟩
  | cons c cs ih =>
    obtain ⟨w1, hf, hi1, hg1, hc1⟩ := feedChunk_facts env c { w with plain := [] }
      (coreInv_reset w hi) hg
    have hcw := feedChunk_plainFlushes env c _ w1 hf
    have hn2 : ∀ p ∈ plainFlushes (flush env w1).trace, p ≠ [] := by
      intro p hp
      rw [flush_plainFlushes, hcw] at hp
      rcases List.mem_append.mp hp with hp | hp
      · exact hn p hp
      · by_cases he : w1.plain = []
        · simp [he] at hp
        · simp only [he, if_false, List.mem_singleton] at hp
          exact hp ▸ he
    obtain ⟨w2, hr, hi2, hg2, hn3, hc2⟩ := ih (flush env w1) (coreInv_flush env w1 hi1)
      (by rw [flush_ptyPackets]; exact hg1) hn2
    refine ⟨w2, ?_, hi2, hg2, hn3, ?_⟩
    · simp only [runChunks, cycle_of_feed env w w1 c hf]
      exact hr
    · rw [hc2, flush_plainBytes, flush_ptyPackets, pending_flush]
      have hcb : plainBytes w1.trace = plainBytes w.trace := by
        simp only [plainBytes, hcw]
      simp only [pending, List.length_nil] at hc1
      simp only [hcb, List.length_append, List.flatten_cons, pending]
      omega

theorem coreInv_init : CoreInv init := Or.inl rfl

/-! ## Write results do not influence the run -/

theorem stepByte_same (e1 e2 : WriteOracle) (w r : Loop) (b : Byte) (h : Same w r) :
    OptRel Same (stepByte e1 w b) (stepByte e2 r b) := by
  obtain ⟨st, nx, pk, pl, tr⟩ := w
  obtain ⟨st2, nx2, pk2, pl2, tr2⟩ := r
  simp only [Same, Loop.attempted, Loop.mk.injEq] at h
  obtain ⟨rfl, rfl, rfl, rfl, ht⟩ := h
  match st with
  | 0 =>
    simp only [stepByte]
    split_ifs <;> simp [OptRel, Same, Loop.attempted, ht]
  | 1 =>
    simp only [stepByte]
    split_ifs
    · cases pk with
      | nil => simp [OptRel]
      | cons x xs => simp [OptRel, Same, Loop.attempted, ht]
    · simp [OptRel, Same, Loop.attempted, ht]
  | 2 =>
    simp only [stepByte]
    split_ifs <;>
      simp [OptRel, Same, Loop.attempted, ht, attempts_append, attempts,
        attempts_reported_ptyErr]
  | n + 3 => simp [stepByte, OptRel, Same, Loop.attempted, ht]

theorem feedChunk_same (e1 e2 : WriteOracle) (bs : List Byte) (w r : Loop) (h : Same w r) :
    OptRel Same (feedChunk e1 w bs) (feedChunk e2 r bs) := by
  induction bs generalizing w r with
  | nil => exact h
  | cons b bs ih =>
    have hs := stepByte_same e1 e2 w r b h
    simp only [feedChunk]
    cases h1 : stepByte e1 w b with
    | none =>
      cases h2 : stepByte e2 r b with
      | none => trivial
      | some r1 => rw [h1, h2] at hs; exact hs.elim
    | some w1 =>
      cases h2 : stepByte e2 r b with
      | none => rw [h1, h2] at hs; exact hs.elim
      | some r1 => rw [h1, h2] at hs; exact ih w1 r1 hs

theorem flush_same (e1 e2 : WriteOracle) (w r : Loop) (h : Same w r) :
    Same (flush e1 w) (flush e2 r) := by
  obtain ⟨st, nx, pk, pl, tr⟩ := w
  obtain ⟨st2, nx2, pk2, pl2, tr2⟩ := r
  simp only [Same, Loop.attempted, Loop.mk.injEq] at h
  obtain ⟨rfl, rfl, rfl, rfl, ht⟩ := h
  by_cases hp : pl.length ≠ 0 <;>
    simp [flush, Same, Loop.attempted, hp, ht, attempts_append, attempts,
      attempts_reported_stdoutErr]

theorem cycle_same (e1 e2 : WriteOracle) (c : List Byte) (w r : Loop) (h : Same w r) :
    OptRel Same (cycle e1 w c) (cycle e2 r c) := by
  have h0 : Same { w with plain := [] } { r with plain := [] } := by
    simp only [Same, Loop.attempted, Loop.mk.injEq] at h ⊢
    exact ⟨h.1, h.2.1, h.2.2.1, trivial, h.2.2.2.2⟩
  have hf := feedChunk_same e1 e2 c _ _ h0
  simp only [cycle]
  cases h1 : feedChunk e1 { w with plain := [] } c with
  | none =>
    cases h2 : feedChunk e2 { r with plain := [] } c with
    | none => trivial
    | some r1 => rw [h1, h2] at hf; exact hf.elim
  | some w1 =>
    cases h2 : feedChunk e2 { r with plain := [] } c with
    | none => rw [h1, h2] at hf; exact hf.elim
    | some r1 => rw [h1, h2] at hf; exact flush_same e1 e2 w1 r1 hf

theorem serializeLoop_same (e1 e2 : WriteOracle) (reads : List ReadResult) (w r : Loop)
    (h : Same w r) :
    (serializeLoop e1 w reads).map Loop.attempted =
      (serializeLoop e2 r reads).map Loop.attempted := by
  induction reads generalizing w r with
  | nil => simp only [serializeLoop, Outcome.map]; exact congrArg _ h
  | cons x rest ih =>
    cases x with
    | failed err => simp only [serializeLoop, Outcome.map]; exact congrArg _ h
    | data c =>
      have hc := cycle_same e1 e2 c w r h
      simp only [serializeLoop]
      cases h1 : cycle e1 w c with
      | none =>
        cases h2 : cycle e2 r c with
        | none => rfl
        | some r1 => rw [h1, h2] at hc; exact hc.elim
      | some w1 =>
        cases h2 : cycle e2 r c with
        | none => rw [h1, h2] at hc; exact hc.elim
        | some r1 => rw [h1, h2] at hc; exact ih w1 r1 hc

theorem optRel_same_map (x y : Option Loop) (h : OptRel Same x y) :
    x.map Loop.attempted = y.map Loop.attempted := by
  cases x <;> cases y <;> simp_all [OptRel, Same]

theorem serializeLoop_data (env : WriteOracle) (chunks : List (List Byte)) (w : Loop) :
    serializeLoop env w (chunks.map ReadResult.data) =
      match runChunks env w chunks with
      | none => Outcome.panicked
      | some w1 => Outcome.reading w1 := by
  induction chunks generalizing w with
  | nil => rfl
  | cons c cs ih =>
    simp only [List.map_cons, serializeLoop, runChunks]
    cases cycle env w c with
    | none => rfl
    | some w1 => exact ih w1

theorem runChunks_same (e1 e2 : WriteOracle) (chunks : List (List Byte)) (w : Loop) :
    (runChunks e1 w chunks).map Loop.attempted =
      (runChunks e2 w chunks).map Loop.attempted := by
  have h := serializeLoop_same e1 e2 (chunks.map ReadResult.data) w w rfl
  rw [serializeLoop_data, serializeLoop_data] at h
  cases h1 : runChunks e1 w chunks <;> cases h2 : runChunks e2 w chunks <;>
    simp_all [Outcome.map]

theorem runChunks_append (env : WriteOracle) (a b : List (List Byte)) (w : Loop) :
    runChunks env w (a ++ b) = (runChunks env w a).bind (fun w1 => runChunks env w1 b) := by
  induction a generalizing w with
  | nil => rfl
  | cons c cs ih =>
    simp only [List.cons_append, runChunks]
    cases cycle env w c with
    | none => rfl
    | some w1 => exact ih w1

theorem runChunks_init_observe (e1 e2 : WriteOracle) (chunks : List (List Byte)) :
    (runChunks e1 init chunks).map observe =
      (feedChunk e2 init chunks.flatten).map observeFlushed :=
  runChunks_observe e1 e2 chunks init

theorem exists_of_observe (x : Option Loop) (st : Nat) (nx : Byte) (pk : List Byte)
    (sent : List (List Byte)) (out : List Byte)
    (h : x.map observe = some (st, nx, pk, sent, out)) :
    ∃ w, x = some w ∧ w.state = st ∧ w.next = nx ∧ w.packet = pk ∧
      ptyPackets w.trace = sent ∧ plainBytes w.trace = out := by
  cases x with
  | none => simp at h
  | some w =>
    simp only [Option.map_some', Option.some.injEq, observe, Prod.mk.injEq] at h
    exact ⟨w, rfl, h⟩

theorem plainFlushes_eq_nil (tr : List Event) (hn : ∀ p ∈ plainFlushes tr, p ≠ [])
    (h : plainBytes tr = []) : plainFlushes tr = [] := by
  cases hc : plainFlushes tr with
  | nil => rfl
  | cons x xs =>
    exfalso
    have hx : x ∈ plainFlushes tr := by rw [hc]; exact List.mem_cons_self x xs
    apply hn x hx
    have h2 : x ++ xs.flatten = [] := by
      simpa [plainBytes, hc] using h
    exact (List.append_eq_nil.mp h2).1

theorem stepByte_plain_frame (env : WriteOracle) (c : List Byte) (w w1 : Loop) (b : Byte)
    (h : stepByte env w b = some w1) :
    stepByte env { w with plain := c ++ w.plain } b =
      some { w1 with plain := c ++ w1.plain } := by
  obtain ⟨st, nx, pk, pl, tr⟩ := w
  match st with
  | 0 =>
    simp only [stepByte] at h ⊢
    split_ifs at h ⊢ <;> simp at h <;> subst h <;> simp
  | 1 =>
    simp only [stepByte] at h ⊢
    split_ifs at h ⊢
    · cases pk with
      | nil => simp at h
      | cons x xs => simp at h; subst h; simp
    · simp at h; subst h; simp
  | 2 =>
    simp only [stepByte] at h ⊢
    split_ifs at h ⊢ <;> simp at h <;> subst h <;> simp
  | n + 3 => simp [stepByte] at h ⊢; subst h; simp

theorem feedChunk_plain_frame (env : WriteOracle) (c bs : List Byte) (w w1 : Loop)
    (h : feedChunk env w bs = some w1) :
    feedChunk env { w with plain := c ++ w.plain } bs =
      some { w1 with plain := c ++ w1.plain } := by
  induction bs generalizing w with
  | nil => simp only [feedChunk, Option.some.injEq] at h ⊢; subst h; rfl
  | cons b bs ih =>
    simp only [feedChunk] at h ⊢
    cases hs : stepByte env w b with
    | none => rw [hs] at h; simp at h
    | some w2 =>
      rw [hs] at h
      rw [stepByte_plain_frame env c w w2 b hs]
      exact ih w2 h

theorem ptyPackets_attempts (tr : List Event) : ptyPackets (attempts tr) = ptyPackets tr := by
  induction tr with
  | nil => rfl
  | cons e tr ih => cases e <;> simp [attempts, ptyPackets, ih]

theorem plainFlushes_attempts (tr : List Event) :
    plainFlushes (attempts tr) = plainFlushes tr := by
  induction tr with
  | nil => rfl
  | cons e tr ih => cases e <;> simp [attempts, plainFlushes, ih]

/-! ## Shape of the packet buffer in reachable states -/

theorem marker_shape {pk : List Byte}
    (h : pk.take 2 = [6, 9] ∨ pk.take 2 = [4, 20]) :
    ∃ x y rest, pk = x :: y :: rest ∧ ((x = 6 ∧ y = 9) ∨ (x = 4 ∧ y = 20)) := by
  rcases h with h | h
  · obtain ⟨rest, hr⟩ := take_two_eq h
    exact ⟨6, 9, rest, hr, Or.inl ⟨rfl, rfl⟩⟩
  · obtain ⟨rest, hr⟩ := take_two_eq h
    exact ⟨4, 20, rest, hr, Or.inr ⟨rfl, rfl⟩⟩

theorem stepByte_head (env : WriteOracle) (w w1 : Loop) (b : Byte) (hi : CoreInv w)
    (hh : PacketHead w) (hs : stepByte env w b = some w1) : PacketHead w1 := by
  obtain ⟨st, nx, pk, pl, tr⟩ := w
  rcases hi with h0 | ⟨h1, hpk⟩ | ⟨h2, htk, _⟩
  · simp only at h0
    subst h0
    simp only [stepByte] at hs
    split_ifs at hs with h6 h4 <;> simp only [Option.some.injEq] at hs <;> subst hs
    · subst h6; simp [PacketHead]
    · subst h4; simp [PacketHead]
    · exact hh
  · simp only at h1 hpk
    subst h1
    simp only [stepByte] at hs
    split_ifs at hs
    · rcases hpk with ⟨rfl, rfl⟩ | ⟨rfl, rfl⟩ <;>
        simp only [Option.some.injEq] at hs <;> subst hs <;> simp [PacketHead]
    · rcases hpk with ⟨rfl, rfl⟩ | ⟨rfl, rfl⟩ <;>
        simp only [Option.some.injEq] at hs <;> subst hs <;> simp [PacketHead]
  · simp only at h2 htk
    subst h2
    obtain ⟨x, y, rest, rfl, hm⟩ := marker_shape htk
    simp only [stepByte] at hs
    split_ifs at hs <;> simp only [Option.some.injEq] at hs <;> subst hs <;>
      rcases hm with ⟨rfl, rfl⟩ | ⟨rfl, rfl⟩ <;> simp [PacketHead]

theorem feedChunk_head (env : WriteOracle) (bs : List Byte) (w : Loop) (hi : CoreInv w)
    (hh : PacketHead w) :
    ∃ w1, feedChunk env w bs = some w1 ∧ CoreInv w1 ∧ PacketHead w1 := by
  induction bs generalizing w with
  | nil => exact ⟨w, rfl, hi, hh⟩
  | cons b bs ih =>
    obtain ⟨w1, hs, hi1, _, _⟩ := stepByte_facts env w b hi
    obtain ⟨w2, hf, hi2, hh2⟩ := ih w1 hi1 (stepByte_head env w w1 b hi hh hs)
    exact ⟨w2, by simp only [feedChunk, hs, hf], hi2, hh2⟩

theorem packetHead_flush (env : WriteOracle) (w : Loop) (h : PacketHead w) :
    PacketHead (flush env w) := by
  unfold PacketHead
  rw [flush_packet]
  exact h

theorem runChunks_head (env : WriteOracle) (chunks : List (List Byte)) (w : Loop)
    (hi : CoreInv w) (hh : PacketHead w) :
    ∃ w1, runChunks env w chunks = some w1 ∧ CoreInv w1 ∧ PacketHead w1 := by
  induction chunks generalizing w with
  | nil => exact ⟨w, rfl, hi, hh⟩
  | cons c cs ih =>
    obtain ⟨w1, hf, hi1, hh1⟩ := feedChunk_head env c { w with plain := [] }
      (coreInv_reset w hi) hh
    obtain ⟨w2, hr, hi2, hh2⟩ := ih (flush env w1) (coreInv_flush env w1 hi1)
      (packetHead_flush env w1 hh1)
    refine ⟨w2, ?_, hi2, hh2⟩
    simp only [runChunks, cycle_of_feed env w w1 c hf]
    exact hr

/-- After any reads and any further bytes of the next read, the loop has not
panicked and its variables have the reachable shape. -/
theorem reachable_shape (env : WriteOracle) (chunks : List (List Byte)) (bs : List Byte) :
    ∃ w w1, runChunks env init chunks = some w ∧
      feedChunk env { w with plain := [] } bs = some w1 ∧ CoreInv w1 ∧ PacketHead w1 := by
  obtain ⟨w, hr, hi, hh⟩ := runChunks_head env chunks init coreInv_init (Or.inl rfl)
  obtain ⟨w1, hf, hi1, hh1⟩ := feedChunk_head env bs { w with plain := [] }
    (coreInv_reset w hi) hh
  exact ⟨w, w1, hr, hf, hi1, hh1⟩

theorem serializeLoop_data_append (env : WriteOracle) (chunks : List (List Byte))
    (more : List ReadResult) (w : Loop) :
    serializeLoop env w (chunks.map ReadResult.data ++ more) =
      match runChunks env w chunks with
      | none => Outcome.panicked
      | some w1 => serializeLoop env w1 more := by
  induction chunks generalizing w with
  | nil => rfl
  | cons c cs ih =>
    simp only [List.map_cons, List.cons_append, serializeLoop, runChunks]
    cases cycle env w c with
    | none => rfl
    | some w1 => exact ih w1

/-! ## The forwarding loop of `reader` -/

theorem serWrites_append (a b : List FwdEvent) :
    serWrites (a ++ b) = serWrites a ++ serWrites b := by
  induction a with
  | nil => rfl
  | cons e a ih => cases e <;> simp [serWrites, ih]

theorem ptyReads_append (a b : List FwdEvent) :
    ptyReads (a ++ b) = ptyReads a ++ ptyReads b := by
  induction a with
  | nil => rfl
  | cons e a ih => cases e <;> simp [ptyReads, ih]

theorem serWrites_forwarded (chunks : List (List Byte)) :
    serWrites (forwarded chunks) = chunks := by
  induction chunks with
  | nil => rfl
  | cons c cs ih => simp [forwarded, serWrites, ih]

theorem ptyReads_forwarded (chunks : List (List Byte)) :
    ptyReads (forwarded chunks) = chunks := by
  induction chunks with
  | nil => rfl
  | cons c cs ih => simp [forwarded, ptyReads, ih]

theorem reader_balanced (wfail : FwdOracle) (reads : List ReadResult) (tr : List FwdEvent)
    (h : serWrites tr = ptyReads tr) :
    serWrites (reader wfail tr reads).trace = ptyReads (reader wfail tr reads).trace := by
  induction reads generalizing tr with
  | nil => exact h
  | cons x rest ih =>
    cases x with
    | failed err =>
      simp [reader, FwdOutcome.trace, serWrites_append, ptyReads_append, serWrites, ptyReads, h]
    | data c =>
      have h2 : serWrites (tr ++ [FwdEvent.ptyRead c, FwdEvent.serWrite c]) =
          ptyReads (tr ++ [FwdEvent.ptyRead c, FwdEvent.serWrite c]) := by
        simp [serWrites_append, ptyReads_append, serWrites, ptyReads, h]
      simp only [reader]
      split_ifs
      · simp [FwdOutcome.trace, serWrites_append, ptyReads_append, serWrites, ptyReads, h]
      · exact ih _ h2

theorem reader_reads_prefix (wfail : FwdOracle) (reads : List ReadResult)
    (tr : List FwdEvent) :
    ∃ done, ptyReads (reader wfail tr reads).trace = ptyReads tr ++ done ∧
      done <+: leadingData reads := by
  induction reads generalizing tr with
  | nil => exact ⟨[], by simp [reader, FwdOutcome.trace], List.nil_prefix⟩
  | cons x rest ih =>
    cases x with
    | failed err =>
      exact ⟨[], by simp [reader, FwdOutcome.trace, ptyReads_append, ptyReads],
        List.nil_prefix⟩
    | data c =>
      simp only [reader, leadingData]
      split_ifs
      · refine ⟨[c], by simp [FwdOutcome.trace, ptyReads_append, ptyReads], ?_⟩
        exact ⟨leadingData rest, rfl⟩
      · obtain ⟨done, hd, hp⟩ := ih (tr ++ [FwdEvent.ptyRead c, FwdEvent.serWrite c])
        refine ⟨c :: done, ?_, ?_⟩
        · rw [hd]
          simp [ptyReads_append, ptyReads]
        · obtain ⟨t, ht⟩ := hp
          exact ⟨t, by simp [ht]⟩

theorem reader_returned_append (wfail : FwdOracle) (reads rest : List ReadResult)
    (tr t : List FwdEvent) (h : reader wfail tr reads = FwdOutcome.returned t) :
    reader wfail tr (reads ++ rest) = FwdOutcome.returned t := by
  induction reads generalizing tr with
  | nil => simp [reader] at h
  | cons x xs ih =>
    cases x with
    | failed err => simpa [reader] using h
    | data c =>
      simp only [List.cons_append, reader] at h ⊢
      split_ifs at h ⊢ with hw
      · exact h
      · exact ih _ h

theorem reader_reading_append (wfail : FwdOracle) (reads more : List ReadResult)
    (tr t : List FwdEvent) (h : reader wfail tr reads = FwdOutcome.reading t) :
    reader wfail tr (reads ++ more) = reader wfail t more := by
  induction reads generalizing tr with
  | nil =>
    simp only [reader, FwdOutcome.reading.injEq] at h
    subst h
    rfl
  | cons x xs ih =>
    cases x with
    | failed err => simp [reader] at h
    | data c =>
      simp only [List.cons_append, reader] at h ⊢
      split_ifs at h ⊢ with hw
      exact ih _ h

theorem reader_fwdOk (chunks : List (List Byte)) (tr : List FwdEvent) :
    reader fwdOk tr (chunks.map ReadResult.data) = FwdOutcome.reading (tr ++ forwarded chunks) := by
  induction chunks generalizing tr with
  | nil => simp [reader, forwarded]
  | cons c cs ih =>
    have hf : fwdOk (tr ++ [FwdEvent.ptyRead c, FwdEvent.serWrite c]) = false := rfl
    simp only [List.map_cons, reader, hf, Bool.false_eq_true, if_false]
    rw [ih]
    simp [forwarded]

/-! ## The packet buffer in the idle state -/

theorem idleEq_refl (w : Loop) : IdleEq w w :=
  ⟨rfl, rfl, rfl, fun _ => ⟨rfl, rfl⟩⟩

theorem optRel_idleEq_refl (x : Option Loop) : OptRel IdleEq x x := by
  cases x with
  | none => trivial
  | some w => exact idleEq_refl w

theorem stepByte_idleEq (env : WriteOracle) (w r : Loop) (b : Byte) (h : IdleEq w r) :
    OptRel IdleEq (stepByte env w b) (stepByte env r b) := by
  obtain ⟨st, nx, pk, pl, tr⟩ := w
  obtain ⟨st2, nx2, pk2, pl2, tr2⟩ := r
  obtain ⟨h1, h2, h3, h4⟩ := h
  simp only at h1 h2 h3 h4
  subst h1 h2 h3
  match st, h4 with
  | 0, _ =>
    simp only [stepByte]
    split_ifs <;> simp [OptRel, IdleEq]
  | n + 1, h4 =>
    obtain ⟨rfl, rfl⟩ := h4 (Nat.succ_ne_zero n)
    exact optRel_idleEq_refl _

theorem feedChunk_idleEq (env : WriteOracle) (bs : List Byte) (w r : Loop) (h : IdleEq w r) :
    OptRel IdleEq (feedChunk env w bs) (feedChunk env r bs) := by
  induction bs generalizing w r with
  | nil => exact h
  | cons b bs ih =>
    have hs := stepByte_idleEq env w r b h
    simp only [feedChunk]
    cases h1 : stepByte env w b with
    | none =>
      cases h2 : stepByte env r b with
      | none => trivial
      | some r1 => rw [h1, h2] at hs; exact hs.elim
    | some w1 =>
      cases h2 : stepByte env r b with
      | none => rw [h1, h2] at hs; exact hs.elim
      | some r1 => rw [h1, h2] at hs; exact ih w1 r1 hs

/-! ## The input stream as plain runs and packets in turn -/

theorem weave_snoc (gs ps : List (List Byte)) (g p : List Byte)
    (h : gs.length = ps.length) :
    weave (gs ++ [g]) (ps ++ [p]) = weave gs ps ++ (g ++ p) := by
  induction gs generalizing ps with
  | nil =>
    cases ps with
    | nil => simp [weave]
    | cons q qs => simp at h
  | cons x xs ih =>
    cases ps with
    | nil => simp at h
    | cons q qs =>
      simp only [List.length_cons, Nat.add_right_cancel_iff] at h
      simp [weave, ih qs h]

/-- One byte keeps the reading of the stream as plain runs and packets in turn:
`gs` are the plain runs before each packet sent, `last` the plain run after the
last packet, and the packet in progress ends the stream. -/
theorem stepByte_woven (env : WriteOracle) (w : Loop) (b : Byte) (hi : CoreInv w)
    (stream : List Byte) (gs : List (List Byte)) (last : List Byte)
    (hlen : gs.length = (ptyPackets w.trace).length)
    (hst : stream = weave gs (ptyPackets w.trace) ++ last ++ pendingPacket w)
    (hcon : plainBytes w.trace ++ w.plain = gs.flatten ++ last) :
    ∃ w1 gs1 last1, stepByte env w b = some w1 ∧ CoreInv w1 ∧
      gs1.length = (ptyPackets w1.trace).length ∧
      stream ++ [b] = weave gs1 (ptyPackets w1.trace) ++ last1 ++ pendingPacket w1 ∧
      plainBytes w1.trace ++ w1.plain = gs1.flatten ++ last1 := by
  obtain ⟨w1, hs, hi1, _, _⟩ := stepByte_facts env w b hi
  obtain ⟨st, nx, pk, pl, tr⟩ := w
  simp only at hlen hst hcon
  rcases hi with h0 | ⟨h1, hpk⟩ | ⟨h2, _, _⟩
  · simp only at h0
    subst h0
    have hs2 := hs
    simp only [stepByte] at hs2
    split_ifs at hs2 with h6 h4 <;> simp only [Option.some.injEq] at hs2 <;> subst hs2
    · exact ⟨_, gs, last, hs, hi1, hlen, by simp [hst, pendingPacket], hcon⟩
    · exact ⟨_, gs, last, hs, hi1, hlen, by simp [hst, pendingPacket], hcon⟩
    · refine ⟨_, gs, last ++ [b], hs, hi1, hlen, by simp [hst, pendingPacket], ?_⟩
      simp only [← List.append_assoc, hcon]
  · simp only at h1 hpk
    subst h1
    have hs2 := hs
    simp only [stepByte] at hs2
    split_ifs at hs2 with hb
    · rcases hpk with ⟨rfl, rfl⟩ | ⟨rfl, rfl⟩ <;>
        simp only [Option.some.injEq] at hs2 <;> subst hs2
      · refine ⟨_, gs, last ++ [6, b], hs, hi1, hlen, by simp [hst, pendingPacket], ?_⟩
        simp only [← List.append_assoc, hcon]
      · refine ⟨_, gs, last ++ [4, b], hs, hi1, hlen, by simp [hst, pendingPacket], ?_⟩
        simp only [← List.append_assoc, hcon]
    · simp only [Option.some.injEq] at hs2
      subst hs2
      exact ⟨_, gs, last, hs, hi1, hlen, by simp [hst, pendingPacket], hcon⟩
  · simp only at h2
    subst h2
    have hs2 := hs
    simp only [stepByte] at hs2
    split_ifs at hs2 with hb <;> simp only [Option.some.injEq] at hs2 <;> subst hs2
    · refine ⟨_, gs ++ [last], [], hs, hi1, ?_, ?_, ?_⟩
      · simp [ptyPackets_reported_ptyErr, ptyPackets_append, ptyPackets, hlen]
      · simp only [ptyPackets_reported_ptyErr, ptyPackets_append, ptyPackets, List.append_nil]
        rw [weave_snoc gs _ last _ hlen]
        simp [hst, pendingPacket, hb]
      · simpa [plainBytes, plainFlushes_reported_ptyErr, plainFlushes_append, plainFlushes]
          using hcon
    · exact ⟨_, gs, last, hs, hi1, hlen, by simp [hst, pendingPacket], hcon⟩

theorem feedChunk_woven (env : WriteOracle) (bs : List Byte) (w : Loop) (hi : CoreInv w)
    (stream : List Byte) (gs : List (List Byte)) (last : List Byte)
    (hlen : gs.length = (ptyPackets w.trace).length)
    (hst : stream = weave gs (ptyPackets w.trace) ++ last ++ pendingPacket w)
    (hcon : plainBytes w.trace ++ w.plain = gs.flatten ++ last) :
    ∃ w1 gs1 last1, feedChunk env w bs = some w1 ∧
      gs1.length = (ptyPackets w1.trace).length ∧
      stream ++ bs = weave gs1 (ptyPackets w1.trace) ++ last1 ++ pendingPacket w1 ∧
      plainBytes w1.trace ++ w1.plain = gs1.flatten ++ last1 := by
  induction bs generalizing w stream gs last with
  | nil => exact ⟨w, gs, last, rfl, hlen, by simpa using hst, hcon⟩
  | cons b bs ih =>
    obtain ⟨w1, gs1, last1, hs, hi1, hlen1, hst1, hcon1⟩ :=
      stepByte_woven env w b hi stream gs last hlen hst hcon
    obtain ⟨w2, gs2, last2, hf, hlen2, hst2, hcon2⟩ :=
      ih w1 hi1 (stream ++ [b]) gs1 last1 hlen1 hst1 hcon1
    refine ⟨w2, gs2, last2, by simp only [feedChunk, hs, hf], hlen2, ?_, hcon2⟩
    rw [← hst2]
    simp

/-! ## Shape of the trace -/

theorem stdoutCalls_append (a b : List Event) :
    stdoutCalls (a ++ b) = stdoutCalls a ++ stdoutCalls b := by
  simp [stdoutCalls]

theorem stdoutBytes_append (pr : Printer) (a b : List Event) :
    stdoutBytes pr (a ++ b) = stdoutBytes pr a ++ stdoutBytes pr b := by
  simp [stdoutBytes]

theorem stepByte_trace (env : WriteOracle) (w w1 : Loop) (b : Byte)
    (h : stepByte env w b = some w1) :
    w1.trace = w.trace ∨
      ∃ p, w1.trace = reported env (w.trace ++ [Event.diag p, Event.ptyWrite p]) Event.ptyErr := by
  obtain ⟨st, nx, pk, pl, tr⟩ := w
  match st with
  | 0 =>
    simp only [stepByte] at h
    split_ifs at h <;> simp at h <;> subst h <;> exact Or.inl rfl
  | 1 =>
    simp only [stepByte] at h
    split_ifs at h
    · cases pk with
      | nil => simp at h
      | cons x xs => simp at h; subst h; exact Or.inl rfl
    · simp at h; subst h; exact Or.inl rfl
  | 2 =>
    simp only [stepByte] at h
    split_ifs at h <;> simp at h <;> subst h
    · exact Or.inr ⟨_, rfl⟩
    · exact Or.inl rfl
  | n + 3 => simp [stepByte] at h; subst h; exact Or.inl rfl

theorem flush_trace (env : WriteOracle) (w : Loop) :
    (flush env w).trace = w.trace ∨
      (flush env w).trace =
        reported env (w.trace ++ [Event.stdoutWrite w.plain]) Event.stdoutErr := by
  unfold flush
  split_ifs
  · exact Or.inr rfl
  · exact Or.inl rfl

/-- A property of traces that every packet block and every flush block keeps
holds along the byte loop. -/
theorem feedChunk_traceInv (env : WriteOracle) (P : List Event → Prop)
    (hpkt : ∀ tr p, P tr →
      P (reported env (tr ++ [Event.diag p, Event.ptyWrite p]) Event.ptyErr))
    (bs : List Byte) (w w1 : Loop) (h : feedChunk env w bs = some w1) (h0 : P w.trace) :
    P w1.trace := by
  induction bs generalizing w with
  | nil => simp only [feedChunk, Option.some.injEq] at h; subst h; exact h0
  | cons b bs ih =>
    simp only [feedChunk] at h
    cases hs : stepByte env w b with
    | none => rw [hs] at h; simp at h
    | some w2 =>
      rw [hs] at h
      refine ih w2 h ?_
      rcases stepByte_trace env w w2 b hs with ht | ⟨p, ht⟩
      · rw [ht]; exact h0
      · rw [ht]; exact hpkt _ p h0

/-- A property of traces that every packet block and every flush block keeps
holds along the loop of `serialize`. -/
theorem runChunks_traceInv (env : WriteOracle) (P : List Event → Prop)
    (hpkt : ∀ tr p, P tr →
      P (reported env (tr ++ [Event.diag p, Event.ptyWrite p]) Event.ptyErr))
    (hflush : ∀ tr pl, P tr → P (reported env (tr ++ [Event.stdoutWrite pl]) Event.stdoutErr))
    (chunks : List (List Byte)) (w w1 : Loop) (h : runChunks env w chunks = some w1)
    (h0 : P w.trace) : P w1.trace := by
  induction chunks generalizing w with
  | nil => simp only [runChunks, Option.some.injEq] at h; subst h; exact h0
  | cons c cs ih =>
    simp only [runChunks, cycle] at h
    cases hf : feedChunk env { w with plain := [] } c with
    | none => rw [hf] at h; simp at h
    | some w2 =>
      rw [hf] at h
      refine ih (flush env w2) h ?_
      have h2 : P w2.trace := feedChunk_traceInv env P hpkt c _ w2 hf h0
      rcases flush_trace env w2 with ht | ht
      · rw [ht]; exact h2
      · rw [ht]; exact hflush _ _ h2

/-- When every write succeeds, the trace of a run from the initial state holds
no error report. -/
theorem runChunks_allOk_attempts (chunks : List (List Byte)) (w : Loop)
    (h : runChunks allOk init chunks = some w) : attempts w.trace = w.trace :=
  runChunks_traceInv allOk (fun tr => attempts tr = tr)
    (fun tr p h => by
      have h2 : attempts tr = tr := h
      show attempts (tr ++ [Event.diag p, Event.ptyWrite p]) =
        tr ++ [Event.diag p, Event.ptyWrite p]
      rw [attempts_append, h2]
      rfl)
    (fun tr pl h => by
      have h2 : attempts tr = tr := h
      show attempts (tr ++ [Event.stdoutWrite pl]) = tr ++ [Event.stdoutWrite pl]
      rw [attempts_append, h2]
      rfl)
    chunks init w h rfl

/-- When every write succeeds and no packet is sent, standard output receives
exactly the plain-text bytes flushed. -/
theorem runChunks_allOk_stdoutBytes (pr : Printer) (chunks : List (List Byte)) (w : Loop)
    (h : runChunks allOk init chunks = some w) (hp : ptyPackets w.trace = []) :
    stdoutBytes pr w.trace = plainBytes w.trace :=
  runChunks_traceInv allOk
    (fun tr => ptyPackets tr = [] → stdoutBytes pr tr = plainBytes tr)
    (fun tr p _ hn => by
      simp [reported_allOk, ptyPackets_append, ptyPackets] at hn)
    (fun tr pl ih hn => by
      have hn2 : ptyPackets tr = [] := by
        simpa [reported_allOk, ptyPackets_append, ptyPackets] using hn
      have ih2 : stdoutBytes pr tr = plainBytes tr := ih hn2
      show stdoutBytes pr (tr ++ [Event.stdoutWrite pl]) =
        plainBytes (tr ++ [Event.stdoutWrite pl])
      rw [stdoutBytes_append, ih2]
      simp [plainBytes, plainFlushes_append, plainFlushes, stdoutBytes, render])
    chunks init w h (fun _ => rfl) hp

/-- In a run from the initial state whatever was written was a packet or a
flush of plain text: with no packet sent and no plain text flushed, the trace is
empty, so nothing reached the pty or standard output. -/
theorem runChunks_trace_nil (env : WriteOracle) (chunks : List (List Byte)) (w : Loop)
    (h : runChunks env init chunks = some w) (hp : ptyPackets w.trace = [])
    (hf : plainFlushes w.trace = []) : w.trace = [] :=
  runChunks_traceInv env
    (fun tr => ptyPackets tr = [] → plainFlushes tr = [] → tr = [])
    (fun tr p _ hn _ => by
      rw [ptyPackets_reported_ptyErr] at hn
      simp [ptyPackets_append, ptyPackets] at hn)
    (fun tr pl _ _ hn => by
      rw [plainFlushes_reported_stdoutErr] at hn
      simp [plainFlushes_append, plainFlushes] at hn)
    chunks init w h (fun _ _ => rfl) hp hf

theorem flush_of_nil (env : WriteOracle) (w : Loop) (h : w.plain = []) : flush env w = w := by
  simp [flush, h]

theorem feedChunk_eq_foldlM (env : WriteOracle) (bs : List Byte) (w : Loop) :
    feedChunk env w bs = bs.foldlM (stepByte env) w := by
  induction bs generalizing w with
  | nil => rfl
  | cons b bs ih =>
    simp only [feedChunk, List.foldlM_cons]
    cases stepByte env w b with
    | none => rfl
    | some w1 => exact ih w1

/-! ## Claims -/

/-- C3, as the code behaves: chunk-boundary independence of the classification.
From every value `w` of the loop variables and for all byte lists `a` and `b`,
reading `a` and then `b` gives the same final state, expected tail and packet
buffer, the same sequence of packets sent to the virtual endpoint and the same
concatenated plain-text bytes flushed to standard output as reading `a ++ b` in
one chunk, whatever the results of the writes in either run (a run that panics
in one case panics in the other). -/
theorem chunk_boundary_independence (e1 e2 : WriteOracle) (w : Loop) (a b : List Byte) :
    (runChunks e1 w [a, b]).map observe = (runChunks e2 w [a ++ b]).map observe := by
  rw [runChunks_observe e1 allOk, runChunks_observe e2 allOk]
  simp

/-- C3 as stated fails: all the bytes that reach standard output are not the
same in the two runs.  Read as `a b` and then `4 20 x 10 c`, standard output
gets `"ab"`, the report of the packet, `"c"`; read as one chunk it gets the
report first and then `"abc"`; the first bytes already differ. -/
theorem report_position_depends_on_reads :
    ∃ w1 w2, runChunks allOk init [[97, 98], [4, 20, 120, 10, 99]] = some w1 ∧
      runChunks allOk init [[97, 98] ++ [4, 20, 120, 10, 99]] = some w2 ∧
      observe w1 = observe w2 ∧
      ∀ pr : Printer, stdoutBytes pr w1.trace ≠ stdoutBytes pr w2.trace :=
  ⟨{ state := 0, next := 20, packet := [4, 20, 120, 10], plain := [99],
      trace := [Event.stdoutWrite [97, 98], Event.diag [4, 20, 120, 10],
        Event.ptyWrite [4, 20, 120, 10], Event.stdoutWrite [99]] },
    { state := 0, next := 20, packet := [4, 20, 120, 10], plain := [97, 98, 99],
      trace := [Event.diag [4, 20, 120, 10], Event.ptyWrite [4, 20, 120, 10],
        Event.stdoutWrite [97, 98, 99]] },
    rfl, rfl, rfl, fun pr h => by
      have h2 := congrArg List.head? h
      simp [stdoutBytes, render, reportPrefix] at h2⟩

/-- C2, as the code behaves: for either marker pair and every payload `p`
without a newline byte (`p` may hold 6, 4, 9 and 20), the single chunk
`[head, tail] ++ p ++ [10]` read in the initial state sends exactly one packet,
the whole chunk, to the virtual endpoint, flushes no plain text and ends in the
idle state; the whole trace is the report of the packet, the pty write and, if
that write failed, its error report, so standard output receives the line
`mcumgr: ` with the quoted packet and a newline, followed only after a failed
pty write by the line `Error sending: {}` with the text for the error. -/
theorem single_frame_chunk (env : WriteOracle) (head tail : Byte) (p : List Byte)
    (hm : (head = 6 ∧ tail = 9) ∨ (head = 4 ∧ tail = 20)) (hp : 10 ∉ p) :
    ∃ w, runChunks env init [[head, tail] ++ p ++ [10]] = some w ∧ w.state = 0 ∧
      ptyPackets w.trace = [[head, tail] ++ p ++ [10]] ∧ plainFlushes w.trace = [] ∧
      w.trace = reported env [Event.diag ([head, tail] ++ p ++ [10]),
        Event.ptyWrite ([head, tail] ++ p ++ [10])] Event.ptyErr ∧
      (env [Event.diag ([head, tail] ++ p ++ [10]),
          Event.ptyWrite ([head, tail] ++ p ++ [10])] = none →
        ∀ pr : Printer, stdoutBytes pr w.trace =
          reportPrefix ++ pr.quoted ([head, tail] ++ p ++ [10]) ++ [10]) ∧
      (∀ err, env [Event.diag ([head, tail] ++ p ++ [10]),
          Event.ptyWrite ([head, tail] ++ p ++ [10])] = some err →
        ∀ pr : Printer, stdoutBytes pr w.trace =
          reportPrefix ++ pr.quoted ([head, tail] ++ p ++ [10]) ++ [10] ++
            (sendErrorText ++ pr.extra err)) := by
  have hf := feedChunk_frame env init head tail p rfl hm hp
  have hrun := runChunks_single env init _ _ (cycle_of_feed env init _ _ hf)
  rw [flush_of_nil env _ rfl] at hrun
  refine ⟨_, hrun, rfl, ?_, ?_, rfl, ?_, ?_⟩
  · simp [init, ptyPackets_reported_ptyErr, ptyPackets]
  · simp [init, plainFlushes_reported_ptyErr, plainFlushes]
  · intro he pr
    show stdoutBytes pr (reported env [Event.diag ([head, tail] ++ p ++ [10]),
      Event.ptyWrite ([head, tail] ++ p ++ [10])] Event.ptyErr) = _
    rw [reported_of_none env _ _ he]
    simp [stdoutBytes, render]
  · intro err he pr
    show stdoutBytes pr (reported env [Event.diag ([head, tail] ++ p ++ [10]),
      Event.ptyWrite ([head, tail] ++ p ++ [10])] Event.ptyErr) = _
    rw [reported_of_some env _ _ err he]
    simp [stdoutBytes, render]

/-- C2 at the input of the specification: `[6, 9, 'O', 'K', 10]` gives exactly
one packet of five bytes, and one report line on standard output. -/
theorem single_frame_chunk_witness :
    ∃ w, runChunks allOk init [[6, 9] ++ [79, 75] ++ [10]] = some w ∧ w.state = 0 ∧
      ptyPackets w.trace = [[6, 9] ++ [79, 75] ++ [10]] ∧ plainFlushes w.trace = [] ∧
      w.trace = reported allOk [Event.diag ([6, 9] ++ [79, 75] ++ [10]),
        Event.ptyWrite ([6, 9] ++ [79, 75] ++ [10])] Event.ptyErr ∧
      (allOk [Event.diag ([6, 9] ++ [79, 75] ++ [10]),
          Event.ptyWrite ([6, 9] ++ [79, 75] ++ [10])] = none →
        ∀ pr : Printer, stdoutBytes pr w.trace =
          reportPrefix ++ pr.quoted ([6, 9] ++ [79, 75] ++ [10]) ++ [10]) ∧
      (∀ err, allOk [Event.diag ([6, 9] ++ [79, 75] ++ [10]),
          Event.ptyWrite ([6, 9] ++ [79, 75] ++ [10])] = some err →
        ∀ pr : Printer, stdoutBytes pr w.trace =
          reportPrefix ++ pr.quoted ([6, 9] ++ [79, 75] ++ [10]) ++ [10] ++
            (sendErrorText ++ pr.extra err)) :=
  single_frame_chunk allOk 6 9 [79, 75] (Or.inl ⟨rfl, rfl⟩) (by decide)

/-- C2 as stated fails: after the chunk `[6, 9, 'O', 'K', 10]` standard output
has received a write, the report of the packet, whose bytes start with
`mcumgr: `; it has not received nothing. -/
theorem frame_report_on_console :
    ∃ w, runChunks allOk init [[6, 9, 79, 75, 10]] = some w ∧
      stdoutCalls w.trace = [Event.diag [6, 9, 79, 75, 10]] ∧
      ∀ pr : Printer, stdoutBytes pr w.trace =
        reportPrefix ++ pr.quoted [6, 9, 79, 75, 10] ++ [10] ∧ stdoutBytes pr w.trace ≠ [] :=
  ⟨{ state := 0, next := 9, packet := [6, 9, 79, 75, 10], plain := [],
      trace := [Event.diag [6, 9, 79, 75, 10], Event.ptyWrite [6, 9, 79, 75, 10]] },
    rfl, rfl, fun pr => ⟨by simp [stdoutBytes, render], by simp [stdoutBytes, render, reportPrefix]⟩⟩

/-- C5: an unterminated packet is never sent and grows without a length limit.
For either marker pair, every newline-free byte list `p` of any length and every
division `chunks` of `[head, tail] ++ p` into reads, the loop sends no packet,
writes nothing to standard output (its trace is empty: no report, no flush, no
error line) and ends inside the packet with the packet buffer equal to
`[head, tail] ++ p`; and for every division `more` of the same bytes followed by
a newline (the newline in the same read or any later one), exactly the packet
`[head, tail] ++ p ++ [10]` is sent, and no plain text is flushed. -/
theorem unterminated_packet (env : WriteOracle) (head tail : Byte) (p : List Byte)
    (chunks more : List (List Byte))
    (hm : (head = 6 ∧ tail = 9) ∨ (head = 4 ∧ tail = 20)) (hp : 10 ∉ p)
    (hc : chunks.flatten = [head, tail] ++ p)
    (hmore : more.flatten = [head, tail] ++ p ++ [10]) :
    (∃ w, runChunks env init chunks = some w ∧ w.state = 2 ∧
        w.packet = [head, tail] ++ p ∧ ptyPackets w.trace = [] ∧
        plainFlushes w.trace = [] ∧ w.trace = [] ∧ stdoutCalls w.trace = []) ∧
    (∃ w, runChunks env init more = some w ∧ w.state = 0 ∧
        ptyPackets w.trace = [[head, tail] ++ p ++ [10]] ∧ plainFlushes w.trace = []) := by
  constructor
  · have ho := runChunks_init_observe env allOk chunks
    rw [hc, feedChunk_open allOk init head tail p rfl hm hp] at ho
    obtain ⟨w, hr, hs, _, hpk, hpp, hcb⟩ := exists_of_observe _ _ _ _ _ _ ho
    obtain ⟨w1, hr1, _, _, hn, _⟩ := runChunks_facts env chunks init coreInv_init
      (by simp [init, ptyPackets]) (by simp [init, plainFlushes])
    rw [hr] at hr1
    cases hr1
    have hfl : plainFlushes w.trace = [] :=
      plainFlushes_eq_nil _ hn (by simpa [init] using hcb)
    have htr : w.trace = [] := runChunks_trace_nil env chunks w hr hpp hfl
    exact ⟨w, hr, hs, hpk, hpp, hfl, htr, by rw [htr]; rfl⟩
  · have hf := feedChunk_frame allOk init head tail p rfl hm hp
    have ho := runChunks_init_observe env allOk more
    rw [hmore, hf] at ho
    obtain ⟨w, hr, hs, _, _, hpp, hcb⟩ := exists_of_observe _ _ _ _ _ _ ho
    obtain ⟨w1, hr1, _, _, hn, _⟩ := runChunks_facts env more init coreInv_init
      (by simp [init, ptyPackets]) (by simp [init, plainFlushes])
    rw [hr] at hr1
    cases hr1
    refine ⟨w, hr, hs, ?_, plainFlushes_eq_nil _ hn ?_⟩
    · rw [hpp]
      simp [init, reported_allOk, ptyPackets_append, ptyPackets]
    · rw [hcb]
      simp [init, reported_allOk, plainBytes, plainFlushes_append, plainFlushes]

/-- C5 at a concrete input: the frame `6 9 'O' 'K'` read in three pieces stays
unsent, and the newline arriving two reads later sends it. -/
theorem unterminated_packet_witness :
    (∃ w, runChunks allOk init [[6], [9, 79], [75]] = some w ∧ w.state = 2 ∧
        w.packet = [6, 9] ++ [79, 75] ∧ ptyPackets w.trace = [] ∧
        plainFlushes w.trace = [] ∧ w.trace = [] ∧ stdoutCalls w.trace = []) ∧
    (∃ w, runChunks allOk init [[6], [9, 79], [75], [], [10]] = some w ∧ w.state = 0 ∧
        ptyPackets w.trace = [[6, 9] ++ [79, 75] ++ [10]] ∧ plainFlushes w.trace = []) :=
  unterminated_packet allOk 6 9 [79, 75] [[6], [9, 79], [75]] [[6], [9, 79], [75], [], [10]]
    (Or.inl ⟨rfl, rfl⟩) (by decide) rfl rfl

/-- C6: wire format of every packet sent.  For every sequence of reads from the
initial state the loop runs without panic, and each packet written to the
virtual endpoint has length at least 3, begins with `6 9` or with `4 20`, ends
with the byte 10 and holds no other byte 10. -/
theorem emitted_packet_format (env : WriteOracle) (chunks : List (List Byte)) :
    ∃ w, runChunks env init chunks = some w ∧
      ∀ p ∈ ptyPackets w.trace,
        3 ≤ p.length ∧ (p.take 2 = [6, 9] ∨ p.take 2 = [4, 20]) ∧
          p.getLast? = some 10 ∧ 10 ∉ p.dropLast := by
  obtain ⟨w, hr, _, hg, _, _⟩ := runChunks_facts env chunks init coreInv_init
    (by simp [init, ptyPackets]) (by simp [init, plainFlushes])
  exact ⟨w, hr, hg⟩

/-- C7, as the code behaves.  (1) However the mixed sequence `a b 4 20 x 10 c`
is divided into reads, exactly the packet `[4, 20, 'x', 10]` is sent and the
plain text flushed is `"abc"`.  (2) Read as one chunk, the loop reports and
sends the packet and then makes one write `"abc"` (error reports of failed
writes aside); when every write succeeds standard output receives the report
line followed by `"abc"`.  (3) Read as `a b` and then `4 20 x 10 c`, the loop
writes `"ab"`, then reports and sends the packet, then writes `"c"`; when every
write succeeds standard output receives `"ab"`, the report line, `"c"`. -/
theorem mixed_sequence (env : WriteOracle) (chunks : List (List Byte))
    (hc : chunks.flatten = [97, 98, 4, 20, 120, 10, 99]) :
    (∃ w, runChunks env init chunks = some w ∧ w.state = 0 ∧
        ptyPackets w.trace = [[4, 20, 120, 10]] ∧ plainBytes w.trace = [97, 98, 99]) ∧
    (runChunks env init [[97, 98, 4, 20, 120, 10, 99]]).map (fun w => attempts w.trace) =
      some [Event.diag [4, 20, 120, 10], Event.ptyWrite [4, 20, 120, 10],
        Event.stdoutWrite [97, 98, 99]] ∧
    (runChunks env init [[97, 98], [4, 20, 120, 10, 99]]).map (fun w => attempts w.trace) =
      some [Event.stdoutWrite [97, 98], Event.diag [4, 20, 120, 10],
        Event.ptyWrite [4, 20, 120, 10], Event.stdoutWrite [99]] ∧
    (∀ pr : Printer,
      (runChunks allOk init [[97, 98, 4, 20, 120, 10, 99]]).map
          (fun w => stdoutBytes pr w.trace) =
        some (reportPrefix ++ pr.quoted [4, 20, 120, 10] ++ [10] ++ [97, 98, 99])) ∧
    (∀ pr : Printer,
      (runChunks allOk init [[97, 98], [4, 20, 120, 10, 99]]).map
          (fun w => stdoutBytes pr w.trace) =
        some ([97, 98] ++ (reportPrefix ++ pr.quoted [4, 20, 120, 10] ++ [10]) ++ [99])) := by
  have hmap : ∀ cs : List (List Byte),
      (runChunks env init cs).map (fun w => attempts w.trace) =
        (runChunks allOk init cs).map (fun w => attempts w.trace) := by
    intro cs
    have h := congrArg (Option.map Loop.trace) (runChunks_same env allOk cs init)
    simpa [Option.map_map, Function.comp_def, Loop.attempted] using h
  have h1 : runChunks allOk init [[97, 98, 4, 20, 120, 10, 99]] =
      some { state := 0, next := 20, packet := [4, 20, 120, 10], plain := [97, 98, 99],
             trace := [Event.diag [4, 20, 120, 10], Event.ptyWrite [4, 20, 120, 10],
               Event.stdoutWrite [97, 98, 99]] } := rfl
  have h2 : runChunks allOk init [[97, 98], [4, 20, 120, 10, 99]] =
      some { state := 0, next := 20, packet := [4, 20, 120, 10], plain := [99],
             trace := [Event.stdoutWrite [97, 98], Event.diag [4, 20, 120, 10],
               Event.ptyWrite [4, 20, 120, 10], Event.stdoutWrite [99]] } := rfl
  refine ⟨?_, ?_, ?_, ?_, ?_⟩
  · have ho := runChunks_init_observe env allOk chunks
    rw [hc] at ho
    obtain ⟨w, hr, hs, _, _, hpp, hcb⟩ := exists_of_observe _ _ _ _ _ _ (ho.trans rfl)
    exact ⟨w, hr, hs, hpp, hcb⟩
  · rw [hmap]; rfl
  · rw [hmap]; rfl
  · intro pr
    rw [h1]
    simp [stdoutBytes, render]
  · intro pr
    rw [h2]
    simp [stdoutBytes, render]

/-- C7 at a concrete division of the sequence into three reads. -/
theorem mixed_sequence_witness :
    (∃ w, runChunks allOk init [[97], [98, 4], [20, 120, 10, 99]] = some w ∧ w.state = 0 ∧
        ptyPackets w.trace = [[4, 20, 120, 10]] ∧ plainBytes w.trace = [97, 98, 99]) ∧
    (runChunks allOk init [[97, 98, 4, 20, 120, 10, 99]]).map (fun w => attempts w.trace) =
      some [Event.diag [4, 20, 120, 10], Event.ptyWrite [4, 20, 120, 10],
        Event.stdoutWrite [97, 98, 99]] ∧
    (runChunks allOk init [[97, 98], [4, 20, 120, 10, 99]]).map (fun w => attempts w.trace) =
      some [Event.stdoutWrite [97, 98], Event.diag [4, 20, 120, 10],
        Event.ptyWrite [4, 20, 120, 10], Event.stdoutWrite [99]] ∧
    (∀ pr : Printer,
      (runChunks allOk init [[97, 98, 4, 20, 120, 10, 99]]).map
          (fun w => stdoutBytes pr w.trace) =
        some (reportPrefix ++ pr.quoted [4, 20, 120, 10] ++ [10] ++ [97, 98, 99])) ∧
    (∀ pr : Printer,
      (runChunks allOk init [[97, 98], [4, 20, 120, 10, 99]]).map
          (fun w => stdoutBytes pr w.trace) =
        some ([97, 98] ++ (reportPrefix ++ pr.quoted [4, 20, 120, 10] ++ [10]) ++ [99])) :=
  mixed_sequence allOk [[97], [98, 4], [20, 120, 10, 99]] rfl

/-- C7 as stated fails: read as one chunk from the idle state, the sequence
`a b 4 20 x 10 c` puts on standard output the report of the packet and then the
one write `"abc"`, not the write `"ab"`, the packet, and the write `"c"`. -/
theorem single_chunk_merges_console_writes :
    ∃ w, runChunks allOk init [[97, 98, 4, 20, 120, 10, 99]] = some w ∧
      ptyPackets w.trace = [[4, 20, 120, 10]] ∧
      stdoutCalls w.trace = [Event.diag [4, 20, 120, 10], Event.stdoutWrite [97, 98, 99]] ∧
      plainFlushes w.trace = [[97, 98, 99]] ∧
      plainFlushes w.trace ≠ [[97, 98], [99]] :=
  ⟨_, rfl, rfl, rfl, rfl, by decide⟩

/-- C8, as the code behaves: flush discipline of the driving loop.  In the
cycle that handles the read `chunk` after any earlier reads `pre`: the byte
loop is the step function applied to the bytes of the chunk in order, started
from an empty plain buffer, and it makes no flush of plain text (what it puts
on standard output is the report of each packet it completes and the report of
a failed pty write).  The cycle then ends with the variables and the packets
sent as the byte loop left them; when the plain buffer is empty nothing is
added to the trace, and otherwise exactly one write of the plain buffer is
added, followed only when that write failed by its error report.  The buffer
written holds exactly the bytes this cycle appended: started from any content
`carried`, the byte loop ends with `carried` followed by them. -/
theorem flush_discipline (env : WriteOracle) (pre : List (List Byte))
    (chunk carried : List Byte) :
    ∃ w w1 w2, runChunks env init pre = some w ∧
      chunk.foldlM (stepByte env) { w with plain := [] } = some w1 ∧
      runChunks env init (pre ++ [chunk]) = some w2 ∧
      plainFlushes w1.trace = plainFlushes w.trace ∧
      w2.trace = (if w1.plain = [] then w1.trace
        else reported env (w1.trace ++ [Event.stdoutWrite w1.plain]) Event.stdoutErr) ∧
      stdoutCalls w2.trace = stdoutCalls w1.trace ++
        (if w1.plain = [] then []
          else Event.stdoutWrite w1.plain ::
            (match env (w1.trace ++ [Event.stdoutWrite w1.plain]) with
              | some err => [Event.stdoutErr err]
              | none => [])) ∧
      plainFlushes w2.trace =
        plainFlushes w.trace ++ (if w1.plain = [] then [] else [w1.plain]) ∧
      w2.state = w1.state ∧ w2.next = w1.next ∧ w2.packet = w1.packet ∧
      ptyPackets w2.trace = ptyPackets w1.trace ∧
      chunk.foldlM (stepByte env) { w with plain := carried } =
        some { w1 with plain := carried ++ w1.plain } := by
  obtain ⟨w, hr, hi, hg, _, _⟩ := runChunks_facts env pre init coreInv_init
    (by simp [init, ptyPackets]) (by simp [init, plainFlushes])
  obtain ⟨w1, hf, _, _, _⟩ := feedChunk_facts env chunk { w with plain := [] }
    (coreInv_reset w hi) hg
  have hcw := feedChunk_plainFlushes env chunk _ w1 hf
  have hfr := feedChunk_plain_frame env carried chunk _ w1 hf
  have htr : (flush env w1).trace = (if w1.plain = [] then w1.trace
      else reported env (w1.trace ++ [Event.stdoutWrite w1.plain]) Event.stdoutErr) := by
    by_cases hp : w1.plain = [] <;> simp [flush, hp]
  refine ⟨w, w1, flush env w1, hr, ?_, ?_, hcw, htr, ?_, ?_,
    flush_state env w1, flush_next env w1, flush_packet env w1, flush_ptyPackets env w1, ?_⟩
  · rw [← feedChunk_eq_foldlM]
    exact hf
  · rw [runChunks_append, hr]
    exact runChunks_single env w _ chunk (cycle_of_feed env w w1 chunk hf)
  · rw [htr]
    by_cases hp : w1.plain = []
    · simp [hp]
    · cases he : env (w1.trace ++ [Event.stdoutWrite w1.plain]) <;>
        simp [hp, reported, he, stdoutCalls, writesStdout]
  · rw [flush_plainFlushes, hcw]
  · rw [← feedChunk_eq_foldlM]
    simpa using hfr

/-- C8 as stated fails on standard output.  (1) When the flush of the plain
buffer `"a"` fails, two writes follow the byte loop: the plain buffer and the
error report.  (2) In the cycle for the read `6 9 10` no plain-text byte is
produced, yet standard output receives a write, the report of the packet. -/
theorem flush_is_not_the_only_console_write :
    (∃ w, runChunks (fun tr => if tr.length = 1 then some "EIO" else none) init [[97]] =
        some w ∧
      stdoutCalls w.trace = [Event.stdoutWrite [97], Event.stdoutErr "EIO"]) ∧
    (∃ w, runChunks allOk init [[6, 9, 10]] = some w ∧ w.plain = [] ∧
      stdoutCalls w.trace = [Event.diag [6, 9, 10]]) :=
  ⟨⟨_, rfl, rfl⟩, ⟨_, rfl, rfl, rfl⟩⟩

/-- C9, as the code behaves: byte conservation.  For every sequence of reads
from the initial state, the plain-text bytes flushed to standard output, the
bytes of the packets sent and the bytes of the packet in progress (counted when
the final state is not idle) add up to the number of bytes read. -/
theorem byte_conservation (env : WriteOracle) (chunks : List (List Byte)) :
    ∃ w, runChunks env init chunks = some w ∧
      (plainBytes w.trace).length + totalLength (ptyPackets w.trace) +
        (if w.state = 0 then 0 else w.packet.length) = chunks.flatten.length := by
  obtain ⟨w, hr, _, _, _, hc⟩ := runChunks_facts env chunks init coreInv_init
    (by simp [init, ptyPackets]) (by simp [init, plainFlushes])
  refine ⟨w, hr, ?_⟩
  simpa [pending, init, plainBytes, plainFlushes, ptyPackets, totalLength] using hc

/-- C9 as stated fails: with all the bytes written to standard output counted,
the sum is too large.  After the read `[6, 9, 'O', 'K', 10]` standard output
holds the report of the packet, at least nine bytes, and the packet has five
bytes, while five bytes were read. -/
theorem report_bytes_break_conservation :
    ∃ w, runChunks allOk init [[6, 9, 79, 75, 10]] = some w ∧
      ∀ pr : Printer,
        (stdoutBytes pr w.trace).length + totalLength (ptyPackets w.trace) +
          (if w.state = 0 then 0 else w.packet.length) ≠ [[6, 9, 79, 75, 10]].flatten.length :=
  ⟨{ state := 0, next := 9, packet := [6, 9, 79, 75, 10], plain := [],
      trace := [Event.diag [6, 9, 79, 75, 10], Event.ptyWrite [6, 9, 79, 75, 10]] },
    rfl, fun pr h => by
      simp [stdoutBytes, render, reportPrefix, totalLength, ptyPackets] at h⟩

/-- C10, as the code behaves: write failures do not disturb the
classification.  Whatever the results of the pty and standard-output writes,
(1) the byte loop from any loop state reaches, after any bytes, the same
variables and, error reports left out, the same trace as when every write
succeeds; (2) the same holds for the outer loop on any sequence of read
results, which stops in both runs at the same read and with the same error;
(3) after any reads the state, expected tail, packet buffer, packets handed to
the virtual endpoint and plain buffers handed to standard output are those of
the all-success run; (4) from the initial state, the trace with the error
reports left out is exactly the trace of the all-success run, so the error
report lines are all that write failures change on standard output; (5) while
reads succeed, the loop started in the initial state is still reading. -/
theorem write_failure_independence (env : WriteOracle) (w : Loop) (bs : List Byte)
    (reads : List ReadResult) (chunks : List (List Byte)) :
    (feedChunk env w bs).map Loop.attempted = (feedChunk allOk w bs).map Loop.attempted ∧
    (serializeLoop env w reads).map Loop.attempted =
      (serializeLoop allOk w reads).map Loop.attempted ∧
    (runChunks env w chunks).map
        (fun x => (x.state, x.next, x.packet, ptyPackets x.trace, plainFlushes x.trace)) =
      (runChunks allOk w chunks).map
        (fun x => (x.state, x.next, x.packet, ptyPackets x.trace, plainFlushes x.trace)) ∧
    (runChunks env init chunks).map (fun x => attempts x.trace) =
      (runChunks allOk init chunks).map (fun x => x.trace) ∧
    ∃ w1, serializeLoop env init (chunks.map ReadResult.data) = Outcome.reading w1 := by
  refine ⟨optRel_same_map _ _ (feedChunk_same env allOk bs w w rfl),
    serializeLoop_same env allOk reads w w rfl, ?_, ?_, ?_⟩
  · have h := congrArg (Option.map (fun x : Loop =>
      (x.state, x.next, x.packet, ptyPackets x.trace, plainFlushes x.trace)))
      (runChunks_same env allOk chunks w)
    simpa [Option.map_map, Function.comp_def, Loop.attempted, ptyPackets_attempts,
      plainFlushes_attempts] using h
  · have h := congrArg (Option.map Loop.trace) (runChunks_same env allOk chunks init)
    simp only [Option.map_map, Function.comp_def, Loop.attempted] at h
    rw [h]
    cases hr : runChunks allOk init chunks with
    | none => rfl
    | some w2 =>
      simp only [Option.map_some', Option.some.injEq]
      exact runChunks_allOk_attempts chunks w2 hr
  · obtain ⟨w1, hr, _⟩ := runChunks_facts env chunks init coreInv_init
      (by simp [init, ptyPackets]) (by simp [init, plainFlushes])
    exact ⟨w1, by rw [serializeLoop_data, hr]⟩

/-- C10 as stated fails: the writes on standard output are not the same when a
write fails.  With the pty write of the packet `6 9 10` failing, standard output
receives the report of the packet and then the error report; with the write
succeeding it receives the report of the packet only. -/
theorem failed_send_adds_console_write :
    ∃ w1 w2,
      runChunks (fun tr => if tr.length = 2 then some "EIO" else none) init [[6, 9, 10]] =
        some w1 ∧
      runChunks allOk init [[6, 9, 10]] = some w2 ∧
      stdoutCalls w1.trace = [Event.diag [6, 9, 10], Event.ptyErr "EIO"] ∧
      stdoutCalls w2.trace = [Event.diag [6, 9, 10]] ∧
      ∀ pr : Printer, stdoutBytes pr w1.trace ≠ stdoutBytes pr w2.trace :=
  ⟨{ state := 0, next := 9, packet := [6, 9, 10], plain := [],
      trace := [Event.diag [6, 9, 10], Event.ptyWrite [6, 9, 10], Event.ptyErr "EIO"] },
    { state := 0, next := 9, packet := [6, 9, 10], plain := [],
      trace := [Event.diag [6, 9, 10], Event.ptyWrite [6, 9, 10]] },
    rfl, rfl, rfl, rfl, fun pr h => by
      have h2 := congrArg List.length h
      simp [stdoutBytes, render, sendErrorText] at h2⟩

/-- C11: in every state reached from the initial state, after any sequence of
reads and after any number of bytes of the following read, the packet buffer is
empty or its first byte is a marker head, 6 or 4. -/
theorem packet_head_invariant (env : WriteOracle) (chunks : List (List Byte))
    (bs : List Byte) :
    ∃ w w1, runChunks env init chunks = some w ∧
      feedChunk env { w with plain := [] } bs = some w1 ∧
      (w.packet = [] ∨ w.packet.head? = some 6 ∨ w.packet.head? = some 4) ∧
      (w1.packet = [] ∨ w1.packet.head? = some 6 ∨ w1.packet.head? = some 4) := by
  obtain ⟨w, hr, hi, hh⟩ := runChunks_head env chunks init coreInv_init (Or.inl rfl)
  obtain ⟨w1, hf, _, hh1⟩ := feedChunk_head env bs { w with plain := [] }
    (coreInv_reset w hi) hh
  exact ⟨w, w1, hr, hf, hh, hh1⟩

/-- C12: read-error propagation.  When `k` successful reads are followed by a
read that fails with error `e`, the loop of `serialize` handles exactly the `k`
chunks and returns `e`, with the variables and the trace of writes as they were
after the `k`-th chunk, whatever read results might have followed; and while
the reads succeed the loop has not returned. -/
theorem read_error_propagation (env : WriteOracle) (chunks : List (List Byte))
    (e : IOError) (rest : List ReadResult) :
    ∃ w, runChunks env init chunks = some w ∧
      serializeLoop env init (chunks.map ReadResult.data ++ ReadResult.failed e :: rest) =
        Outcome.returned e w ∧
      serializeLoop env init (chunks.map ReadResult.data) = Outcome.reading w := by
  obtain ⟨w, hr, _⟩ := runChunks_head env chunks init coreInv_init (Or.inl rfl)
  refine ⟨w, hr, ?_, ?_⟩
  · rw [serializeLoop_data_append, hr]
    rfl
  · rw [serializeLoop_data, hr]

/-- C13: the passthrough forwarder `reader`.  (1) When every read of the pty
master and every serial write succeeds, the trace is a read followed by the
write of the same bytes, read after read, so the serial writes are exactly the
chunks read, one write per read, and their concatenation is the concatenation
of the bytes read.  (2) In every run the buffers written to the serial port
are, one for one and in order, the buffers read, and these are leading
successful reads of the input.  (3) A failed read ends the function with no read
or write after it.  (4) A failed write ends the function with nothing after its
report, whatever read results would have followed.  (5) Once the function has
returned, further read results change nothing. -/
theorem passthrough_forwarder (wfail : FwdOracle) (reads rest : List ReadResult)
    (chunks : List (List Byte)) (e : IOError) :
    (reader fwdOk [] (chunks.map ReadResult.data) = FwdOutcome.reading (forwarded chunks) ∧
      serWrites (forwarded chunks) = chunks ∧
      (serWrites (forwarded chunks)).flatten = chunks.flatten) ∧
    (serWrites (reader wfail [] reads).trace = ptyReads (reader wfail [] reads).trace ∧
      ptyReads (reader wfail [] reads).trace <+: leadingData reads) ∧
    reader fwdOk [] (chunks.map ReadResult.data ++ ReadResult.failed e :: rest) =
      FwdOutcome.returned (forwarded chunks ++ [FwdEvent.ptyReadErr]) ∧
    (∀ tr c, reader wfail [] reads = FwdOutcome.reading tr →
      wfail (tr ++ [FwdEvent.ptyRead c, FwdEvent.serWrite c]) = true →
      reader wfail [] (reads ++ ReadResult.data c :: rest) =
        FwdOutcome.returned
          (tr ++ [FwdEvent.ptyRead c, FwdEvent.serWrite c] ++ [FwdEvent.serWriteErr])) ∧
    (∀ tr, reader wfail [] reads = FwdOutcome.returned tr →
      reader wfail [] (reads ++ rest) = FwdOutcome.returned tr) := by
  refine ⟨⟨?_, serWrites_forwarded chunks, by rw [serWrites_forwarded]⟩, ⟨?_, ?_⟩, ?_, ?_, ?_⟩
  · simpa using reader_fwdOk chunks []
  · exact reader_balanced wfail reads [] rfl
  · obtain ⟨done, hd, hp⟩ := reader_reads_prefix wfail reads []
    rw [hd]
    simpa [ptyReads] using hp
  · rw [reader_reading_append fwdOk _ _ [] (forwarded chunks)
      (by simpa using reader_fwdOk chunks [])]
    rfl
  · intro tr c hr hw
    rw [reader_reading_append wfail reads _ [] tr hr]
    simp only [reader, hw, if_true]
  · intro tr hr
    exact reader_returned_append wfail reads rest [] tr hr

/-- C13 at a concrete run: the second serial write fails, and the third read
result is never used. -/
theorem passthrough_forwarder_witness :
    reader (fun tr => decide (tr.length = 4)) []
        ([ReadResult.data [1, 2]] ++ ReadResult.data [3] :: [ReadResult.data [4]]) =
      FwdOutcome.returned
        ([FwdEvent.ptyRead [1, 2], FwdEvent.serWrite [1, 2]] ++
          [FwdEvent.ptyRead [3], FwdEvent.serWrite [3]] ++ [FwdEvent.serWriteErr]) :=
  (passthrough_forwarder (fun tr => decide (tr.length = 4)) [ReadResult.data [1, 2]]
    [ReadResult.data [4]] [] "").2.2.2.1 _ [3] rfl rfl

/-- C16: the index `packet[0]` is always in range.  In every state reached from
the initial state, after any reads and any bytes of the following read, the
state is 0, 1 or 2; in state 1 the packet buffer has length exactly 1, its byte
is 6 or 4 and `next` is the tail paired with it (9 for 6, 20 for 4); in state 2
the packet buffer has length at least 2 and holds no byte 10; and the step for
any next byte is defined, that is, it does not panic. -/
theorem packet_index_in_range (env : WriteOracle) (chunks : List (List Byte))
    (bs : List Byte) :
    ∃ w w1, runChunks env init chunks = some w ∧
      feedChunk env { w with plain := [] } bs = some w1 ∧
      (w1.state = 0 ∨ w1.state = 1 ∨ w1.state = 2) ∧
      (w1.state = 1 → w1.packet.length = 1 ∧
        ((w1.packet = [6] ∧ w1.next = 9) ∨ (w1.packet = [4] ∧ w1.next = 20))) ∧
      (w1.state = 2 → 2 ≤ w1.packet.length ∧ 10 ∉ w1.packet) ∧
      ∀ b, ∃ w2, stepByte env w1 b = some w2 := by
  obtain ⟨w, w1, hr, hf, hi, _⟩ := reachable_shape env chunks bs
  refine ⟨w, w1, hr, hf, ?_, ?_, ?_, ?_⟩
  · rcases hi with h | ⟨h, _⟩ | ⟨h, _⟩
    · exact Or.inl h
    · exact Or.inr (Or.inl h)
    · exact Or.inr (Or.inr h)
  · intro h1
    rcases hi with h | ⟨_, hpk⟩ | ⟨h, _⟩
    · omega
    · rcases hpk with ⟨hp, hn⟩ | ⟨hp, hn⟩
      · exact ⟨by rw [hp]; rfl, Or.inl ⟨hp, hn⟩⟩
      · exact ⟨by rw [hp]; rfl, Or.inr ⟨hp, hn⟩⟩
    · omega
  · intro h2
    rcases hi with h | ⟨h, _⟩ | ⟨_, htk, h10⟩
    · omega
    · omega
    · obtain ⟨x, y, rest, hp, _⟩ := marker_shape htk
      exact ⟨by rw [hp]; simp, h10⟩
  · intro b
    obtain ⟨w2, hs, _⟩ := stepByte_facts env w1 b hi
    exact ⟨w2, hs⟩

/-- C14, as the code behaves.  (1) A byte 10 handled inside a packet sends the
packet and moves to the idle state, and the packet buffer keeps the packet just
sent.  (2) A false-marker recovery moves to the idle state, puts the buffered
head and the byte on the plain buffer, and leaves the packet buffer as it was.
(3) The packet buffer is set anew, to the head alone, when a marker head is
handled in the idle state.  (4) What is left in the packet buffer (and in
`next`) in the idle state is never read: two loop records that differ only
there run alike on all further bytes. -/
theorem idle_keeps_packet_buffer (env : WriteOracle) (w r : Loop) (b : Byte)
    (bs : List Byte) :
    (w.state = 2 → ∃ w1, stepByte env w 10 = some w1 ∧ w1.state = 0 ∧
      w1.packet = w.packet ++ [10] ∧
      ptyPackets w1.trace = ptyPackets w.trace ++ [w.packet ++ [10]]) ∧
    (∀ h t, w.state = 1 → w.packet = h :: t → b ≠ w.next →
      ∃ w1, stepByte env w b = some w1 ∧ w1.state = 0 ∧ w1.packet = w.packet ∧
        w1.plain = w.plain ++ [h, b]) ∧
    (w.state = 0 → b = 6 ∨ b = 4 →
      ∃ w1, stepByte env w b = some w1 ∧ w1.state = 1 ∧ w1.packet = [b]) ∧
    (IdleEq w r → OptRel IdleEq (feedChunk env w bs) (feedChunk env r bs)) := by
  obtain ⟨st, nx, pk, pl, tr⟩ := w
  refine ⟨?_, ?_, ?_, feedChunk_idleEq env bs _ r⟩
  · intro h2
    simp only at h2
    subst h2
    simp only [stepByte, if_true]
    refine ⟨_, rfl, rfl, rfl, ?_⟩
    simp [ptyPackets_reported_ptyErr, ptyPackets_append, ptyPackets]
  · intro h t h1 hp hb
    simp only at h1 hp hb
    subst h1 hp
    simp only [stepByte, ne_eq, hb, not_false_eq_true, if_true]
    exact ⟨_, rfl, rfl, rfl, rfl⟩
  · intro h0 hb
    simp only at h0
    subst h0
    rcases hb with rfl | rfl
    · exact ⟨_, rfl, rfl, rfl⟩
    · exact ⟨_, rfl, rfl, rfl⟩

/-- C14 at concrete states: the end of the packet `6 9 'O' 10`, the recovery
from `6 'A'`, the head 4 met in the idle state with an old packet in the
buffer, and two idle records with different buffers fed `[4, 20, 10]`. -/
theorem idle_keeps_packet_buffer_witness :
    (∃ w1, stepByte allOk { init with state := 2, next := 9, packet := [6, 9, 79] } 10 =
        some w1 ∧ w1.state = 0 ∧ w1.packet = [6, 9, 79] ++ [10] ∧
        ptyPackets w1.trace = ptyPackets [] ++ [[6, 9, 79] ++ [10]]) ∧
    (∃ w1, stepByte allOk { init with state := 1, next := 9, packet := [6] } 65 = some w1 ∧
        w1.state = 0 ∧ w1.packet = [6] ∧ w1.plain = [] ++ [6, 65]) ∧
    (∃ w1, stepByte allOk { init with packet := [6, 9, 10] } 4 = some w1 ∧ w1.state = 1 ∧
        w1.packet = [4]) ∧
    OptRel IdleEq (feedChunk allOk { init with packet := [6, 9, 10] } [4, 20, 10])
      (feedChunk allOk init [4, 20, 10]) :=
  ⟨(idle_keeps_packet_buffer allOk { init with state := 2, next := 9, packet := [6, 9, 79] }
      init 10 []).1 rfl,
   (idle_keeps_packet_buffer allOk { init with state := 1, next := 9, packet := [6] }
      init 65 []).2.1 6 [] rfl rfl (by decide),
   (idle_keeps_packet_buffer allOk { init with packet := [6, 9, 10] } init 4 []).2.2.1 rfl
      (Or.inr rfl),
   (idle_keeps_packet_buffer allOk { init with packet := [6, 9, 10] } init 4
      [4, 20, 10]).2.2.2 ⟨rfl, rfl, rfl, fun h => absurd rfl h⟩⟩

/-- C14 as stated fails: after the whole packet `6 9 'O' 'K' 10` the loop is
idle with the packet still in the packet buffer, and after the false marker
`6 'A'` it is idle with the head 6 still there. -/
theorem packet_buffer_not_cleared :
    (∃ w, runChunks allOk init [[6, 9, 79, 75, 10]] = some w ∧ w.state = 0 ∧
      w.packet = [6, 9, 79, 75, 10] ∧ w.packet ≠ []) ∧
    (∃ w, runChunks allOk init [[6, 65]] = some w ∧ w.state = 0 ∧
      w.packet = [6] ∧ w.packet ≠ []) :=
  ⟨⟨_, rfl, rfl, rfl, by decide⟩, ⟨_, rfl, rfl, rfl, by decide⟩⟩

/-- C15: a byte that fails the tail check is not looked at again as a marker
head.  For marker heads `h` and `h2` (6 or 4) and every byte list `r` without a
6 or a 4, the bytes `h, h2, tail of h2` followed by `r` send no packet, are all
flushed to standard output in order (in a single write when read as one chunk)
and leave the loop idle, in every division into reads; and when every write
succeeds standard output receives exactly these bytes. -/
theorem failed_tail_not_reexamined (env : WriteOracle) (h h2 : Byte) (r : List Byte)
    (chunks : List (List Byte)) (hh : h = 6 ∨ h = 4) (hh2 : h2 = 6 ∨ h2 = 4)
    (hr : ∀ b ∈ r, b ≠ 6 ∧ b ≠ 4) (hc : chunks.flatten = [h, h2, tailOf h2] ++ r) :
    (∃ w, runChunks env init [[h, h2, tailOf h2] ++ r] = some w ∧ w.state = 0 ∧
        ptyPackets w.trace = [] ∧ plainFlushes w.trace = [[h, h2, tailOf h2] ++ r]) ∧
    (∃ w, runChunks env init chunks = some w ∧ w.state = 0 ∧ ptyPackets w.trace = [] ∧
        plainBytes w.trace = [h, h2, tailOf h2] ++ r ∧
        (env = allOk → ∀ pr : Printer, stdoutBytes pr w.trace = [h, h2, tailOf h2] ++ r)) := by
  have hfeed : ∀ e : WriteOracle, feedChunk e init ([h, h2, tailOf h2] ++ r) =
      some { init with next := tailOf h, packet := [h], plain := [h, h2, tailOf h2] ++ r } := by
    intro e
    have h3 : feedChunk e init [h, h2, tailOf h2] =
        some { init with next := tailOf h, packet := [h], plain := [h, h2, tailOf h2] } := by
      rcases hh with rfl | rfl <;> rcases hh2 with rfl | rfl <;>
        simp [feedChunk, stepByte, init, tailOf]
    rw [feedChunk_append, h3, Option.some_bind, feedChunk_idle_plain e r _ rfl hr]
  constructor
  · refine ⟨_, runChunks_single env init _ _ (cycle_of_feed env init _ _ (hfeed env)),
      ?_, ?_, ?_⟩
    · rw [flush_state]; rfl
    · rw [flush_ptyPackets]; rfl
    · rw [flush_plainFlushes]; simp [init, plainFlushes]
  · have ho := runChunks_init_observe env allOk chunks
    rw [hc, hfeed allOk] at ho
    obtain ⟨w, hrun, hs, _, _, hp, hcb⟩ := exists_of_observe _ _ _ _ _ _ ho
    refine ⟨w, hrun, hs, hp, hcb, ?_⟩
    intro he pr
    subst he
    rw [runChunks_allOk_stdoutBytes pr _ w hrun hp]
    exact hcb

/-- C15 at the input `[6, 6, 9, 'O', 'K', 10]`: no packet, although the bytes
from the second 6 on form a whole frame. -/
theorem failed_tail_not_reexamined_witness :
    (∃ w, runChunks allOk init [[6, 6, tailOf 6] ++ [79, 75, 10]] = some w ∧ w.state = 0 ∧
        ptyPackets w.trace = [] ∧
        plainFlushes w.trace = [[6, 6, tailOf 6] ++ [79, 75, 10]]) ∧
    (∃ w, runChunks allOk init [[6, 6], [9, 79, 75, 10]] = some w ∧ w.state = 0 ∧
        ptyPackets w.trace = [] ∧ plainBytes w.trace = [6, 6, tailOf 6] ++ [79, 75, 10] ∧
        (allOk = allOk → ∀ pr : Printer,
          stdoutBytes pr w.trace = [6, 6, tailOf 6] ++ [79, 75, 10])) :=
  failed_tail_not_reexamined allOk 6 6 [79, 75, 10] [[6, 6], [9, 79, 75, 10]] (Or.inl rfl)
    (Or.inl rfl) (by decide) rfl

/-- C17, as the code behaves: packets are delivered verbatim from the stream.
For every sequence of reads from the initial state there are plain runs `gs`,
one before each packet sent, and a last plain run `last`, such that the
concatenated input is the first run, the first packet, the second run, the
second packet and so on, then `last`, then the packet in progress (when the
loop is not idle); so each packet sent is a contiguous piece of the input, the
packets lie in stream order without overlap, and the plain-text bytes flushed
to standard output are exactly the runs in order, that is, the input without
the packets and the packet in progress. -/
theorem packets_verbatim (env : WriteOracle) (chunks : List (List Byte)) :
    ∃ w gs last, runChunks env init chunks = some w ∧
      gs.length = (ptyPackets w.trace).length ∧
      chunks.flatten = weave gs (ptyPackets w.trace) ++ last ++
        (if w.state = 0 then [] else w.packet) ∧
      plainBytes w.trace = gs.flatten ++ last := by
  obtain ⟨r, gs, last, hf, hlen, hst, hcon⟩ := feedChunk_woven allOk chunks.flatten init
    coreInv_init [] [] [] rfl rfl rfl
  have ho := runChunks_init_observe env allOk chunks
  rw [hf] at ho
  obtain ⟨w, hr, hs, _, hpk, hpp, hcb⟩ := exists_of_observe _ _ _ _ _ _ ho
  refine ⟨w, gs, last, hr, by rw [hpp]; exact hlen, ?_, by rw [hcb]; exact hcon⟩
  rw [hpp, hs, hpk]
  simpa [pendingPacket] using hst

/-- C17 as stated fails for all the bytes on standard output: after the read
`[6, 9, 'O', 'K', 10]` the one packet sent is the whole input, so the input
without the packet is empty, but standard output holds the report of the
packet. -/
theorem console_holds_packet_report :
    ∃ w, runChunks allOk init [[6, 9, 79, 75, 10]] = some w ∧ w.state = 0 ∧
      ptyPackets w.trace = [[6, 9, 79, 75, 10]] ∧
      ∀ (pr : Printer) (gs : List (List Byte)) (last : List Byte),
        gs.length = (ptyPackets w.trace).length →
        [[6, 9, 79, 75, 10]].flatten = weave gs (ptyPackets w.trace) ++ last ++ [] →
        stdoutBytes pr w.trace ≠ gs.flatten ++ last :=
  ⟨{ state := 0, next := 9, packet := [6, 9, 79, 75, 10], plain := [],
      trace := [Event.diag [6, 9, 79, 75, 10], Event.ptyWrite [6, 9, 79, 75, 10]] },
    rfl, rfl, rfl, fun pr gs last hl hw hb => by
      match gs, hl with
      | [g], _ =>
        have h1 := congrArg List.length hw
        have h2 := congrArg List.length hb
        simp [weave, ptyPackets] at h1
        simp [stdoutBytes, render, reportPrefix] at h2
        omega⟩

end Mcumux
